import Mathlib

/-!
Verification of the propositional-logic engine of the TTT repository
(source file utils/logic.ts, together with the data model of types.ts).

The definitions below are a shallow embedding of the TypeScript source:
JavaScript strings are Lean Strings, JavaScript records
(insertion-ordered string-keyed objects) are association lists whose
update-in-place/append-at-end behaviour mirrors JS object assignment,
and the node-id strings "node-0", "node-1", ... are modelled by their
numeric counter values (the mapping k to "node-" ++ toString k is
injective, and ids are only ever compared for equality).
Exceptions (the single throw in analyzeLogic) are modelled with Except.
-/

set_option maxRecDepth 200000

/-- JS object semantics for string-keyed records: assignment overwrites an
existing key in place (keeping its insertion position) and appends a fresh
key at the end.  Used for truth-table row values, evaluation contexts and
the K-map minterm map. -/
abbrev AssocRec (κ ν : Type) := List (κ × ν)

/-- Record assignment: overwrite in place if the key is present, else append. -/
def AssocRec.set {κ ν : Type} [DecidableEq κ] (r : AssocRec κ ν) (k : κ) (v : ν) : AssocRec κ ν :=
  if r.any (fun p => p.1 = k) then r.map (fun p => if p.1 = k then (k, v) else p)
  else r ++ [(k, v)]

/-- Record lookup (JS property access): value of the key when present. -/
def AssocRec.lookupKey {κ ν : Type} [DecidableEq κ] (r : AssocRec κ ν) (k : κ) : Option ν :=
  (r.find? (fun p => p.1 = k)).map Prod.snd

/-- Row values / evaluation contexts: Record<string, boolean> of the source. -/
abbrev Rec := AssocRec String Bool

/-- Add an element to an insertion-ordered set (JS Set.add). -/
def addUnique {α : Type} [DecidableEq α] (l : List α) (a : α) : List α :=
  if l.contains a then l else l ++ [a]

-- ---------------------------------------------------------------------------
-- Tokenizer (logic.ts lines 4-106)
-- ---------------------------------------------------------------------------

/-- Token type tags of the source's Token interface ('VAR' | Operator |
bracket kinds | 'EOF'). -/
inductive TokType where
  | VAR | NOT | AND | OR | IMPLIES | IFF | XOR
  | LPAREN | RPAREN | LBRACKET | RBRACKET | LBRACE | RBRACE | EOF
deriving DecidableEq, Repr

structure Token where
  type : TokType
  value : String
deriving DecidableEq, Repr

/-- The OPS table (multi-character operator aliases), in object-literal
insertion order, each alias paired with its canonical symbol. -/
def OPS : List (String × Char) :=
  [("->", '→'), ("=>", '→'), ("IMPLIES", '→'),
   ("<->", '↔'), ("<=>", '↔'), ("IFF", '↔'),
   ("&", '∧'), ("&&", '∧'), ("AND", '∧'),
   ("|", '∨'), ("||", '∨'), ("OR", '∨'),
   ("!", '¬'), ("~", '¬'), ("-", '¬'), ("NOT", '¬'),
   ("^", '⊕'), ("XOR", '⊕')]

/-- Stable insertion (descending key length): an element moves past exactly
the strictly longer keys, so equal-length keys keep their original order.
This reproduces the stable JS sort((a, b) => b.length - a.length). -/
def insertByLenDesc (p : String × Char) : List (String × Char) → List (String × Char)
  | [] => [p]
  | q :: qs => if q.1.length > p.1.length then q :: insertByLenDesc p qs else p :: q :: qs

/-- opKeys of tokenize: the OPS aliases sorted longest-first (stable). -/
def opKeysSorted : List (String × Char) := OPS.foldr insertByLenDesc []

/-- Canonical symbol to token type (the if/else chain of the op branch). -/
def symToType (c : Char) : TokType :=
  if c = '¬' then .NOT
  else if c = '∧' then .AND
  else if c = '∨' then .OR
  else if c = '→' then .IMPLIES
  else if c = '↔' then .IFF
  else if c = '⊕' then .XOR
  else .VAR  -- unreachable: every OPS symbol is one of the six above

/-- First operator alias that is a prefix of the remaining input
(the for-loop over opKeys with remainder.startsWith(key)). -/
def findOpMatch (s : List Char) : Option (String × Char) :=
  opKeysSorted.find? (fun p => p.1.data.isPrefixOf s)

/-- Membership in Object.values(SYMBOLS) / the bracket list. -/
def isSymbolOrBracket (c : Char) : Bool :=
  c = '¬' || c = '∧' || c = '∨' || c = '→' || c = '↔' || c = '⊕' ||
  c = '(' || c = ')' || c = '[' || c = ']' || c = '\x7b' || c = '\x7d'

/-- The single-character if/else chain of the symbol branch. -/
def charTokType (c : Char) : TokType :=
  if c = '¬' then .NOT
  else if c = '∧' then .AND
  else if c = '∨' then .OR
  else if c = '→' then .IMPLIES
  else if c = '↔' then .IFF
  else if c = '⊕' then .XOR
  else if c = '(' then .LPAREN
  else if c = ')' then .RPAREN
  else if c = '[' then .LBRACKET
  else if c = ']' then .RBRACKET
  else if c = '\x7b' then .LBRACE
  else if c = '\x7d' then .RBRACE
  else .VAR

/-- JS uppercase test /[A-Z]/ (applied after toUpperCase). -/
def isUpperAlpha (c : Char) : Bool := 'A' ≤ c && c ≤ 'Z'

/-- JS whitespace class \s (restricted to its ASCII members; the exotic
Unicode space characters never carry information here). -/
def jsWhitespace (c : Char) : Bool :=
  c = ' ' || c = '\t' || c = '\n' || c = '\r' || c = '\x0b' || c = '\x0c'

/-- input.toUpperCase().replace(whitespace-regex, ''). -/
def preprocess (input : String) : List Char :=
  (input.data.map Char.toUpper).filter (fun c => !jsWhitespace c)

theorem opKeysSorted_key_nonempty : ∀ p ∈ opKeysSorted, 1 ≤ p.1.length := by decide

/-- The scanning loop of tokenize: at each position try the longest-first
operator aliases, then the symbol/bracket characters, then letters and the
literal constants, then the (dead, see OPS) '-' branch, and otherwise skip
the character without producing any token.  The loop consumes at least one
character per iteration, so the structural fuel (initially the input
length) is never exhausted. -/
def tokenizeGo : Nat → List Char → List Token
  | 0, _ => []
  | _, [] => []
  | fuel + 1, c :: rest =>
    match findOpMatch (c :: rest) with
    | some ks =>
      ⟨symToType ks.2, String.singleton ks.2⟩ :: tokenizeGo fuel ((c :: rest).drop ks.1.length)
    | none =>
      if isSymbolOrBracket c then ⟨charTokType c, String.singleton c⟩ :: tokenizeGo fuel rest
      else if isUpperAlpha c || c = '1' || c = '0' then
        ⟨.VAR, String.singleton c⟩ :: tokenizeGo fuel rest
      else if c = '-' then ⟨.NOT, "-"⟩ :: tokenizeGo fuel rest
      else tokenizeGo fuel rest

/-- tokenize (logic.ts line 44): preprocess, scan, append the EOF marker. -/
def tokenize (input : String) : List Token :=
  tokenizeGo (preprocess input).length (preprocess input) ++ [⟨.EOF, ""⟩]

-- ---------------------------------------------------------------------------
-- AST (types.ts ASTNode) and the parser (logic.ts lines 110-255)
-- ---------------------------------------------------------------------------

/-- ASTNode of types.ts: a tagged union over the node type with an id
(the numeric part of "node-k"), the owned children, the canonical
expression string and the rendering depth. -/
inductive ASTNode where
  | VAR (id : Nat) (value : String) (expression : String) (depth : Nat)
  | NOT (id : Nat) (operand : ASTNode) (expression : String) (depth : Nat)
  | AND (id : Nat) (left right : ASTNode) (expression : String) (depth : Nat)
  | OR (id : Nat) (left right : ASTNode) (expression : String) (depth : Nat)
  | XOR (id : Nat) (left right : ASTNode) (expression : String) (depth : Nat)
  | IMPLIES (id : Nat) (left right : ASTNode) (expression : String) (depth : Nat)
  | IFF (id : Nat) (left right : ASTNode) (expression : String) (depth : Nat)
deriving DecidableEq, Repr

/-- The node.type discriminator string. -/
inductive NodeType where
  | VAR | NOT | AND | OR | XOR | IMPLIES | IFF
deriving DecidableEq, Repr

def ASTNode.nodeType : ASTNode → NodeType
  | .VAR .. => .VAR
  | .NOT .. => .NOT
  | .AND .. => .AND
  | .OR .. => .OR
  | .XOR .. => .XOR
  | .IMPLIES .. => .IMPLIES
  | .IFF .. => .IFF

def ASTNode.id : ASTNode → Nat
  | .VAR i _ _ _ => i
  | .NOT i _ _ _ => i
  | .AND i _ _ _ _ => i
  | .OR i _ _ _ _ => i
  | .XOR i _ _ _ _ => i
  | .IMPLIES i _ _ _ _ => i
  | .IFF i _ _ _ _ => i

def ASTNode.expression : ASTNode → String
  | .VAR _ _ e _ => e
  | .NOT _ _ e _ => e
  | .AND _ _ _ e _ => e
  | .OR _ _ _ e _ => e
  | .XOR _ _ _ e _ => e
  | .IMPLIES _ _ _ e _ => e
  | .IFF _ _ _ e _ => e

def ASTNode.depth : ASTNode → Nat
  | .VAR _ _ _ d => d
  | .NOT _ _ _ d => d
  | .AND _ _ _ _ d => d
  | .OR _ _ _ _ d => d
  | .XOR _ _ _ _ d => d
  | .IMPLIES _ _ _ _ d => d
  | .IFF _ _ _ _ d => d

/-- node.expression = ... (the in-place mutation of the bracket wrap in
parseFactor): same node, new expression string. -/
def ASTNode.setExpression : ASTNode → String → ASTNode
  | .VAR i v _ d, e => .VAR i v e d
  | .NOT i o _ d, e => .NOT i o e d
  | .AND i l r _ d, e => .AND i l r e d
  | .OR i l r _ d, e => .OR i l r e d
  | .XOR i l r _ d, e => .XOR i l r e d
  | .IMPLIES i l r _ d, e => .IMPLIES i l r e d
  | .IFF i l r _ d, e => .IFF i l r e d

/-- Parser state: the token array, the cursor and the node-id counter. -/
structure ParserState where
  tokens : List Token
  pos : Nat
  nodeIdCounter : Nat
deriving DecidableEq, Repr

/-- peek(): this.tokens[this.pos] || EOF. -/
def Parser.peek (s : ParserState) : Token := s.tokens.getD s.pos ⟨.EOF, ""⟩

/-- consume(): returns the peeked token and advances the cursor (an
out-of-range access also advances, exactly as pos++ does). -/
def Parser.consume (s : ParserState) : Token × ParserState :=
  (Parser.peek s, ⟨s.tokens, s.pos + 1, s.nodeIdCounter⟩)

/-- generateId(): the counter value of the fresh "node-k" id. -/
def Parser.generateId (s : ParserState) : Nat × ParserState :=
  (s.nodeIdCounter, ⟨s.tokens, s.pos, s.nodeIdCounter + 1⟩)

/-- Expected closing token type for an open-bracket token type. -/
def expectedCloseTypeOf (t : TokType) : TokType :=
  if t = .LPAREN then .RPAREN else if t = .LBRACKET then .RBRACKET else .RBRACE

/-- Expected closing character for an open-bracket token type. -/
def expectedCloseCharOf (t : TokType) : String :=
  if t = .LPAREN then ")" else if t = .LBRACKET then "]" else "\x7d"

/-!
The mutually recursive parse methods.  The TypeScript recursion always
terminates (every cycle through the methods consumes at least one token),
but that argument is extrinsic, so the embedding threads a fuel parameter
that every call decrements; Parser.parse supplies far more fuel than the
source recursion can ever use (at most a handful of frames per token), so
the fuel branch is unreachable on every actual run.  Each while loop is
embedded as a companion ...Loop function on the folded left operand.
-/

/-- Node returned if the fuel (a device of the embedding, see above) runs
out: a fresh placeholder variable. -/
def fuelFallback (st : ParserState) : ASTNode × ParserState :=
  let (nid, st1) := Parser.generateId st
  (.VAR nid "?" "?" 0, st1)

/-- Dispatch tag for the twelve mutually recursive parse methods.  The
embedding folds them into the single structurally recursive parseGo below
(one tag per method; the ...Loop tags are the while loops, carrying the
folded left operand) so that a parse run reduces definitionally; the named
wrappers after parseGo restore the source's one-function-per-method shape. -/
inductive PMode where
  | iff | iffLoop | imp | impLoop | xor | xorLoop
  | or | orLoop | and | andLoop | not | factor
deriving DecidableEq, Repr

def parseGo : Nat → PMode → ASTNode → ParserState → ASTNode × ParserState
  | 0, m, left, st =>
    match m with
    | .iffLoop | .impLoop | .xorLoop | .orLoop | .andLoop => (left, st)
    | _ => fuelFallback st
  | fuel + 1, m, left, st =>
    match m with
    | .iff =>
      let (l, st1) := parseGo fuel .imp left st
      parseGo fuel .iffLoop l st1
    | .iffLoop =>
      if (Parser.peek st).type = .IFF then
        let st1 := (Parser.consume st).2
        let (right, st2) := parseGo fuel .imp left st1
        let (nid, st3) := Parser.generateId st2
        parseGo fuel .iffLoop
          (.IFF nid left right (left.expression ++ " ↔ " ++ right.expression)
            (max left.depth right.depth + 1)) st3
      else (left, st)
    | .imp =>
      let (l, st1) := parseGo fuel .xor left st
      parseGo fuel .impLoop l st1
    | .impLoop =>
      if (Parser.peek st).type = .IMPLIES then
        let st1 := (Parser.consume st).2
        let (right, st2) := parseGo fuel .xor left st1
        let (nid, st3) := Parser.generateId st2
        parseGo fuel .impLoop
          (.IMPLIES nid left right (left.expression ++ " → " ++ right.expression)
            (max left.depth right.depth + 1)) st3
      else (left, st)
    | .xor =>
      let (l, st1) := parseGo fuel .or left st
      parseGo fuel .xorLoop l st1
    | .xorLoop =>
      if (Parser.peek st).type = .XOR then
        let st1 := (Parser.consume st).2
        let (right, st2) := parseGo fuel .or left st1
        let (nid, st3) := Parser.generateId st2
        parseGo fuel .xorLoop
          (.XOR nid left right (left.expression ++ " ⊕ " ++ right.expression)
            (max left.depth right.depth + 1)) st3
      else (left, st)
    | .or =>
      let (l, st1) := parseGo fuel .and left st
      parseGo fuel .orLoop l st1
    | .orLoop =>
      if (Parser.peek st).type = .OR then
        let st1 := (Parser.consume st).2
        let (right, st2) := parseGo fuel .and left st1
        let (nid, st3) := Parser.generateId st2
        parseGo fuel .orLoop
          (.OR nid left right (left.expression ++ " ∨ " ++ right.expression)
            (max left.depth right.depth + 1)) st3
      else (left, st)
    | .and =>
      let (l, st1) := parseGo fuel .not left st
      parseGo fuel .andLoop l st1
    | .andLoop =>
      if (Parser.peek st).type = .AND then
        let st1 := (Parser.consume st).2
        let (right, st2) := parseGo fuel .not left st1
        let (nid, st3) := Parser.generateId st2
        parseGo fuel .andLoop
          (.AND nid left right (left.expression ++ " ∧ " ++ right.expression)
            (max left.depth right.depth + 1)) st3
      else (left, st)
    | .not =>
      if (Parser.peek st).type = .NOT then
        let (token, st1) := Parser.consume st
        let (operand, st2) := parseGo fuel .not left st1
        let (nid, st3) := Parser.generateId st2
        (.NOT nid operand (token.value ++ operand.expression) (operand.depth + 1), st3)
      else parseGo fuel .factor left st
    | .factor =>
      let token := Parser.peek st
      if token.type = .LPAREN ∨ token.type = .LBRACKET ∨ token.type = .LBRACE then
        let openChar := token.value
        let st1 := (Parser.consume st).2
        let (node, st2) := parseGo fuel .iff left st1
        let closeToken := Parser.peek st2
        if closeToken.type = expectedCloseTypeOf token.type then
          let st3 := (Parser.consume st2).2
          (node.setExpression (openChar ++ node.expression ++ expectedCloseCharOf token.type), st3)
        else
          -- lenient recovery: no wrap, mismatched token left unconsumed
          (node, st2)
      else if token.type = .VAR then
        let st1 := (Parser.consume st).2
        let (nid, st2) := Parser.generateId st1
        (.VAR nid token.value token.value 0, st2)
      else
        -- fallback for incomplete/invalid syntax: consume and substitute a placeholder
        let st1 := (Parser.consume st).2
        let (nid, st2) := Parser.generateId st1
        (.VAR nid "?" "?" 0, st2)

/-- Dummy operand for the non-loop modes (never inspected there). -/
def noLeft : ASTNode := .VAR 0 "?" "?" 0

def parseIFF (fuel : Nat) (st : ParserState) : ASTNode × ParserState :=
  parseGo fuel .iff noLeft st

def parseIFFLoop (fuel : Nat) (left : ASTNode) (st : ParserState) : ASTNode × ParserState :=
  parseGo fuel .iffLoop left st

def parseImplies (fuel : Nat) (st : ParserState) : ASTNode × ParserState :=
  parseGo fuel .imp noLeft st

def parseImpliesLoop (fuel : Nat) (left : ASTNode) (st : ParserState) : ASTNode × ParserState :=
  parseGo fuel .impLoop left st

def parseXor (fuel : Nat) (st : ParserState) : ASTNode × ParserState :=
  parseGo fuel .xor noLeft st

def parseXorLoop (fuel : Nat) (left : ASTNode) (st : ParserState) : ASTNode × ParserState :=
  parseGo fuel .xorLoop left st

def parseOr (fuel : Nat) (st : ParserState) : ASTNode × ParserState :=
  parseGo fuel .or noLeft st

def parseOrLoop (fuel : Nat) (left : ASTNode) (st : ParserState) : ASTNode × ParserState :=
  parseGo fuel .orLoop left st

def parseAnd (fuel : Nat) (st : ParserState) : ASTNode × ParserState :=
  parseGo fuel .and noLeft st

def parseAndLoop (fuel : Nat) (left : ASTNode) (st : ParserState) : ASTNode × ParserState :=
  parseGo fuel .andLoop left st

def parseNot (fuel : Nat) (st : ParserState) : ASTNode × ParserState :=
  parseGo fuel .not noLeft st

def parseFactor (fuel : Nat) (st : ParserState) : ASTNode × ParserState :=
  parseGo fuel .factor noLeft st

/-- Fuel supplied to a full parse: the source recursion opens at most a
bounded number of frames per token, far below this bound. -/
def parseFuel (tokens : List Token) : Nat := 8 * tokens.length + 64

/-- parse(): run parseIFF from position 0 with a fresh id counter.  (The
trailing end-of-input inspection of the source is a no-op and is omitted.) -/
def Parser.parse (tokens : List Token) : ASTNode :=
  (parseIFF (parseFuel tokens) ⟨tokens, 0, 0⟩).1

-- ---------------------------------------------------------------------------
-- Evaluator and AST helpers (logic.ts lines 258-328)
-- ---------------------------------------------------------------------------

/-- evaluateAST: two-valued semantics; a Var resolves the literal constants
directly and otherwise looks up the context, defaulting to false. -/
def evaluateAST : ASTNode → Rec → Bool
  | .VAR _ v _ _, context =>
    if v = "1" then true
    else if v = "0" then false
    else (context.lookupKey v).getD false
  | .NOT _ op _ _, context => !evaluateAST op context
  | .AND _ l r _ _, context => evaluateAST l context && evaluateAST r context
  | .OR _ l r _ _, context => evaluateAST l context || evaluateAST r context
  | .XOR _ l r _ _, context => evaluateAST l context != evaluateAST r context
  | .IMPLIES _ l r _ _, context => !evaluateAST l context || evaluateAST r context
  | .IFF _ l r _ _, context => evaluateAST l context == evaluateAST r context

/-- evaluateRawExpression: tokenize, parse, evaluate (the catch branch of
the source is unreachable in the embedding, every stage being total). -/
def evaluateRawExpression (expression : String) (context : Rec) : Bool :=
  evaluateAST (Parser.parse (tokenize expression)) context

/-- list.push(node) guarded by the expression-string dedup find. -/
def pushUniqueByExpr (list : List ASTNode) (n : ASTNode) : List ASTNode :=
  if list.any (fun m => m.expression = n.expression) then list else list ++ [n]

/-- extractSubExpressions: post-order walk (left, right, operand), pushing
each node unless an already-collected node has the same expression string. -/
def extractSubExpressions : ASTNode → List ASTNode → List ASTNode
  | n@(.VAR ..), list => pushUniqueByExpr list n
  | n@(.NOT _ op _ _), list => pushUniqueByExpr (extractSubExpressions op list) n
  | n@(.AND _ l r _ _), list =>
    pushUniqueByExpr (extractSubExpressions r (extractSubExpressions l list)) n
  | n@(.OR _ l r _ _), list =>
    pushUniqueByExpr (extractSubExpressions r (extractSubExpressions l list)) n
  | n@(.XOR _ l r _ _), list =>
    pushUniqueByExpr (extractSubExpressions r (extractSubExpressions l list)) n
  | n@(.IMPLIES _ l r _ _), list =>
    pushUniqueByExpr (extractSubExpressions r (extractSubExpressions l list)) n
  | n@(.IFF _ l r _ _), list =>
    pushUniqueByExpr (extractSubExpressions r (extractSubExpressions l list)) n

/-- getDirectDependencies: ids of the direct children (left, right, operand). -/
def getDirectDependencies : ASTNode → List Nat
  | .VAR .. => []
  | .NOT _ op _ _ => [op.id]
  | .AND _ l r _ _ => [l.id, r.id]
  | .OR _ l r _ _ => [l.id, r.id]
  | .XOR _ l r _ _ => [l.id, r.id]
  | .IMPLIES _ l r _ _ => [l.id, r.id]
  | .IFF _ l r _ _ => [l.id, r.id]

/-- Result record of calculateComplexity. -/
structure CxResult where
  operators : Nat
  depth : Nat
deriving DecidableEq, Repr

/-- calculateComplexity: operator count and depth (a variable has depth 1
in this metric). -/
def calculateComplexity : ASTNode → CxResult
  | .VAR .. => ⟨0, 1⟩
  | .NOT _ op _ _ =>
    let c := calculateComplexity op
    ⟨1 + c.operators, c.depth + 1⟩
  | .AND _ l r _ _ =>
    let cl := calculateComplexity l
    let cr := calculateComplexity r
    ⟨1 + cl.operators + cr.operators, max cl.depth cr.depth + 1⟩
  | .OR _ l r _ _ =>
    let cl := calculateComplexity l
    let cr := calculateComplexity r
    ⟨1 + cl.operators + cr.operators, max cl.depth cr.depth + 1⟩
  | .XOR _ l r _ _ =>
    let cl := calculateComplexity l
    let cr := calculateComplexity r
    ⟨1 + cl.operators + cr.operators, max cl.depth cr.depth + 1⟩
  | .IMPLIES _ l r _ _ =>
    let cl := calculateComplexity l
    let cr := calculateComplexity r
    ⟨1 + cl.operators + cr.operators, max cl.depth cr.depth + 1⟩
  | .IFF _ l r _ _ =>
    let cl := calculateComplexity l
    let cr := calculateComplexity r
    ⟨1 + cl.operators + cr.operators, max cl.depth cr.depth + 1⟩

-- ---------------------------------------------------------------------------
-- Data model records (types.ts)
-- ---------------------------------------------------------------------------

inductive NegationHandling where
  | preserve | normalize | simplify
deriving DecidableEq, Repr

inductive TruthValuesOpt where
  | zeroOne  -- '0/1'
  | ft       -- 'F/T'
deriving DecidableEq, Repr

inductive RowOrder where
  | ascending   -- '0→1'
  | descending  -- '1→0'
deriving DecidableEq, Repr

structure LogicSettings where
  negationHandling : NegationHandling
  truthValues : TruthValuesOpt
  rowOrder : RowOrder
deriving DecidableEq, Repr

structure TableSettings where
  stickyHeaders : Bool
  showSubExpressions : Bool
  highlightDependencies : Bool
  dense : Bool
deriving DecidableEq, Repr

structure AiSettings where
  enabled : Bool
  apiKey : Option String
deriving DecidableEq, Repr

structure AppSettings where
  logic : LogicSettings
  table : TableSettings
  ai : AiSettings
deriving DecidableEq, Repr

def DEFAULT_SETTINGS : AppSettings :=
  ⟨⟨.preserve, .zeroOne, .ascending⟩, ⟨true, true, true, false⟩, ⟨false, some ""⟩⟩

structure TableColumn where
  id : String
  label : String
  expression : String
  isInput : Bool
  isOutput : Bool
  astId : Option Nat
  dependencyIds : Option (List Nat)
deriving DecidableEq, Repr

structure TruthTableRow where
  id : String
  values : Rec
  index : Nat
deriving DecidableEq, Repr

inductive Classification where
  | Tautology | Contradiction | Contingency
deriving DecidableEq, Repr

structure ImplicationForms where
  original : String
  converse : String
  inverse : String
  contrapositive : String
deriving DecidableEq, Repr

structure KMapCell where
  value : Bool
  mintermIndex : Nat
deriving DecidableEq, Repr

structure KMapGroupCell where
  r : Nat
  c : Nat
deriving DecidableEq, Repr

structure KMapGroup where
  cells : List KMapGroupCell
  color : String
  term : String
deriving DecidableEq, Repr

/-- KMapData (the source field `variables` is named vars here because
`variables` is a reserved Lean keyword; same in the records below). -/
structure KMapData where
  grid : List (List KMapCell)
  rowLabels : List String
  colLabels : List String
  vars : List String
  groups : List KMapGroup
  minimizedExpression : String
deriving DecidableEq, Repr

/-- RightAwayResult (the optional `variable` field of the source, which no
code path ever sets, is named varSimplified here because `variable` is a
Lean keyword). -/
structure RightAwayResult where
  isApplicable : Bool
  resultValue : Option Bool
  varSimplified : Option String
  explanation : String
deriving DecidableEq, Repr

structure STTTResult where
  criticalRowId : Option String
  reasoning : String
deriving DecidableEq, Repr

structure ComplexityMetrics where
  operators : Nat
  depth : Nat
  vars : Nat
  totalRows : Nat
deriving DecidableEq, Repr

structure AnalysisResult where
  ast : ASTNode
  columns : List TableColumn
  rows : List TruthTableRow
  vars : List String
  classification : Classification
  mainConnective : NodeType
  implicationForms : Option ImplicationForms
  kMapData : Option KMapData
  rightAway : Option RightAwayResult
  sttt : Option STTTResult
  complexity : ComplexityMetrics
deriving DecidableEq, Repr

-- ---------------------------------------------------------------------------
-- formatLabel (logic.ts lines 19-36)
-- ---------------------------------------------------------------------------

/-- The regex replace of /[-!~]/g with '¬'. -/
def normalizeNegChar (c : Char) : Char :=
  if c = '-' || c = '!' || c = '~' then '¬' else c

/-- One pass of .replace(/¬¬/g, ''): removes non-overlapping ¬¬ pairs
left to right. -/
def removeNegPairs : List Char → List Char
  | '¬' :: '¬' :: rest => removeNegPairs rest
  | c :: rest => c :: removeNegPairs rest
  | [] => []

/-- The while-loop of the simplify branch: iterate removeNegPairs to a
fixpoint.  Every productive pass shortens the list by at least two, so the
supplied fuel (length + 1) is never exhausted. -/
def simplifyNegLoop : Nat → List Char → List Char
  | 0, s => s
  | fuel + 1, s =>
    let s' := removeNegPairs s
    if s' = s then s else simplifyNegLoop fuel s'

/-- formatLabel: negation display formatting.  In the simplify branch the
source returns `normalized || '¬¬'`, i.e. the literal "¬¬" whenever the
cancellation reaches the empty string. -/
def formatLabel (expr : String) (settings : AppSettings) : String :=
  if settings.logic.negationHandling = .preserve then expr
  else
    let normalized := expr.data.map normalizeNegChar
    if settings.logic.negationHandling = .normalize then ⟨normalized⟩
    else  -- simplify
      let reduced := simplifyNegLoop (normalized.length + 1) normalized
      if reduced.isEmpty then "¬¬" else ⟨reduced⟩

-- ---------------------------------------------------------------------------
-- recalculateRow (logic.ts lines 331-352)
-- ---------------------------------------------------------------------------

/-- The input context rebuilt by recalculateRow from the row's
input-column values.  A context entry whose row value is absent is stored
as false (in the source the undefined survives until evaluateAST's
?? false default; both give the same evaluation). -/
def recalcContext (row : TruthTableRow) (columns : List TableColumn) : Rec :=
  (columns.filter (fun c => c.isInput)).foldl
    (fun acc c => acc.set c.expression ((row.values.lookupKey c.expression).getD false)) []

/-- One column update of recalculateRow's forEach: recompute a non-input
column from its referenced node (with the root as fallback), leave
everything else untouched. -/
def recalcStep (subExprNodes : List ASTNode) (ast : ASTNode) (context : Rec)
    (acc : Rec) (col : TableColumn) : Rec :=
  if !col.isInput then
    match (subExprNodes.find? (fun n => some n.id = col.astId)).orElse
        (fun _ => if col.astId = some ast.id then some ast else none) with
    | some node => acc.set col.expression (evaluateAST node context)
    | none => acc
  else acc

/-- recalculateRow: rebuild every non-input column value from the row's
input-column values and the (re-extracted) sub-expression nodes. -/
def recalculateRow (row : TruthTableRow) (columns : List TableColumn) (ast : ASTNode) :
    TruthTableRow :=
  let subExprNodes := extractSubExpressions ast []
  let context := recalcContext row columns
  let newValues := columns.foldl (recalcStep subExprNodes ast context) row.values
  ⟨row.id, newValues, row.index⟩

-- ---------------------------------------------------------------------------
-- RightAway engine (logic.ts lines 355-395)
-- ---------------------------------------------------------------------------

/-- isZero of analyzeRightAwayEngine. -/
def isZeroNode : ASTNode → Bool
  | .VAR _ v _ _ => v = "0"
  | _ => false

/-- isOne of analyzeRightAwayEngine. -/
def isOneNode : ASTNode → Bool
  | .VAR _ v _ _ => v = "1"
  | _ => false

/-- isNegationOf (logic.ts line 391): either side is a NOT whose operand's
expression string equals the other side's expression string. -/
def isNegationOf (a b : ASTNode) : Bool :=
  (match a with
   | .NOT _ op _ _ => op.expression = b.expression
   | _ => false) ||
  (match b with
   | .NOT _ op _ _ => op.expression = a.expression
   | _ => false)

/-- analyzeRightAwayEngine: the source's ordered if-chain, regrouped by the
root node type (each chain test names a specific node.type, so grouping by
constructor preserves the evaluation order among the applicable tests). -/
def analyzeRightAwayEngine (node : ASTNode) : Option RightAwayResult :=
  match node with
  | .IMPLIES _ l r _ _ =>
    if isZeroNode l then
      some ⟨true, some true, none, "Antecedent is 0. Implication is always True."⟩
    else if isOneNode r then
      some ⟨true, some true, none, "Consequent is 1. Implication is always True."⟩
    else if isOneNode l && isZeroNode r then
      some ⟨true, some false, none, "True cannot imply False."⟩
    else if l.expression = r.expression then
      some ⟨true, some true, none, "Self-implication or Equivalence is always True."⟩
    else none
  | .IFF _ l r _ _ =>
    if l.expression = r.expression then
      some ⟨true, some true, none, "Self-implication or Equivalence is always True."⟩
    else none
  | .AND _ l r _ _ =>
    if isZeroNode l || isZeroNode r then
      some ⟨true, some false, none, "AND with 0 is always False."⟩
    else if isNegationOf l r || isNegationOf r l then
      some ⟨true, some false, none, "Contradiction (X ∧ ¬X) detected."⟩
    else none
  | .OR _ l r _ _ =>
    if isOneNode l || isOneNode r then
      some ⟨true, some true, none, "OR with 1 is always True."⟩
    else if isNegationOf l r || isNegationOf r l then
      some ⟨true, some true, none, "Tautology (X ∨ ¬X) detected."⟩
    else none
  | _ => none

/-- Decimal digit character. -/
def natDigitChar (d : Nat) : Char :=
  if d = 0 then '0' else if d = 1 then '1' else if d = 2 then '2' else if d = 3 then '3'
  else if d = 4 then '4' else if d = 5 then '5' else if d = 6 then '6' else if d = 7 then '7'
  else if d = 8 then '8' else '9'

/-- Decimal rendering loop (the fuel, at least one unit per digit, is never
exhausted). -/
def natToDecGo : Nat → Nat → List Char → List Char
  | 0, _, acc => acc
  | fuel + 1, n, acc =>
    if n < 10 then natDigitChar n :: acc
    else natToDecGo fuel (n / 10) (natDigitChar (n % 10) :: acc)

/-- Decimal rendering of a number (the JS template interpolation of row and
node indices); kept first-order so that concrete runs reduce. -/
def natToDec (n : Nat) : String := ⟨natToDecGo (n + 1) n []⟩


-- ---------------------------------------------------------------------------
-- STTT engine (logic.ts lines 398-415)
-- ---------------------------------------------------------------------------

/-- performSTTT: report a proof for Tautology/Contradiction, otherwise cite
the first false row as the critical witness when a true row also exists. -/
def performSTTT (rows : List TruthTableRow) (astExpression : String)
    (classification : Classification) : Option STTTResult :=
  if classification = .Tautology then
    some ⟨none, "No counter-example found (all rows True). Proved Tautology."⟩
  else if classification = .Contradiction then
    some ⟨none, "No row evaluated to True. Proved Contradiction."⟩
  else
    let falseRow := rows.find? (fun r => !((r.values.lookupKey astExpression).getD false))
    let trueRow := rows.find? (fun r => (r.values.lookupKey astExpression).getD false)
    match falseRow, trueRow with
    | some fr, some _ =>
      some ⟨some fr.id,
        "Proven Contingent. Row " ++ natToDec (fr.index + 1) ++ " is False, while others are True."⟩
    | _, _ => none

-- ---------------------------------------------------------------------------
-- K-map builder and solver (logic.ts lines 418-512)
-- ---------------------------------------------------------------------------

def getGrayCode : Nat → List String
  | 1 => ["0", "1"]
  | 2 => ["00", "01", "11", "10"]
  | _ => []

/-- parseInt(bits, 2) on a gray-code concatenation. -/
def parseBin (s : String) : Nat :=
  s.data.foldl (fun acc c => 2 * acc + (if c = '1' then 1 else 0)) 0

/-- grid[r][c] (always in range where used by the solver). -/
def cellAt (grid : List (List KMapCell)) (r c : Nat) : KMapCell :=
  (grid.getD r []).getD c ⟨false, 0⟩

def KMAP_COLORS : List String :=
  ["bg-red-500/20 border-red-500", "bg-blue-500/20 border-blue-500",
   "bg-green-500/20 border-green-500", "bg-yellow-500/20 border-yellow-500",
   "bg-purple-500/20 border-purple-500", "bg-orange-500/20 border-orange-500"]

/-- Candidate rectangle shape of the solver. -/
structure KMapSize where
  h : Nat
  w : Nat
  area : Nat
deriving DecidableEq, Repr

/-- Repeated halving: true iff the argument reaches 1 through exact
divisions by two (the fuel, one unit per halving, is never exhausted). -/
def isPow2Go : Nat → Nat → Bool
  | 0, _ => false
  | fuel + 1, n =>
    if n = 1 then true
    else if n % 2 = 1 then false
    else isPow2Go fuel (n / 2)

/-- Number.isInteger(Math.log2(n)) for a positive integer n: n is a power
of two. -/
def isPow2 (n : Nat) : Bool := n ≠ 0 && isPow2Go (n + 1) n

/-- The nested shape-enumeration loops (for h of [4,2,1], for w of [4,2,1]). -/
def buildSizes (rows cols : Nat) : List KMapSize :=
  [4, 2, 1].flatMap (fun h =>
    [4, 2, 1].filterMap (fun w =>
      if h ≤ rows && w ≤ cols && isPow2 (h * w) then some ⟨h, w, h * w⟩ else none))

/-- Stable insertion by descending area, reproducing the stable JS
sort((a, b) => b.area - a.area). -/
def insertByAreaDesc (p : KMapSize) : List KMapSize → List KMapSize
  | [] => [p]
  | q :: qs => if q.area > p.area then q :: insertByAreaDesc p qs else p :: q :: qs

def sortSizesByAreaDesc (l : List KMapSize) : List KMapSize := l.foldr insertByAreaDesc []

/-- Accumulated solver state: accepted groups and covered minterms. -/
structure SolveState where
  groups : List KMapGroup
  covered : List Nat
deriving Repr

/-- generateTerm: for each bit position on which all covered minterms
agree, emit the variable (bit 1) or its negation (bit 0); positions that
vary are eliminated.  An empty product renders as "1".  (The numRows and
numCols parameters are unused, exactly as in the source.) -/
def generateTerm (minterms : List Nat) (rowVars colVars : List String)
    (_numRows _numCols : Nat) : String :=
  let allVars := rowVars ++ colVars
  let totalBits := allVars.length
  let term := (List.range totalBits).foldl
    (fun term i =>
      match minterms.head? with
      | none => term
      | some m0 =>
        let b0 := (m0 >>> (totalBits - 1 - i)) &&& 1
        if minterms.all (fun m => (m >>> (totalBits - 1 - i)) &&& 1 = b0) then
          term ++ (if b0 = 1 then allVars.getD i "" else "¬" ++ allVars.getD i "")
        else term)
    ""
  if term = "" then "1" else term

/-- The body of the solver's r/c scan for one candidate shape at one
origin: collect the (toroidally wrapped) cells, and accept the rectangle
iff every cell is 1 and it covers a not-yet-covered minterm. -/
def tryRect (grid : List (List KMapCell)) (rows cols : Nat) (rowVars colVars : List String)
    (rowGray colGray : List String) (size : KMapSize) (r c : Nat) (st : SolveState) :
    SolveState :=
  let cells := (List.range size.h).flatMap (fun i =>
    (List.range size.w).map (fun j => KMapGroupCell.mk ((r + i) % rows) ((c + j) % cols)))
  let allOnes := cells.all (fun cell => (cellAt grid cell.r cell.c).value)
  let currentMinterms := cells.foldl
    (fun acc cell => addUnique acc (cellAt grid cell.r cell.c).mintermIndex) []
  if allOnes then
    let coversNew := currentMinterms.any (fun m => !st.covered.contains m)
    if coversNew then
      let term := generateTerm currentMinterms rowVars colVars rowGray.length colGray.length
      ⟨st.groups ++ [⟨cells, KMAP_COLORS.getD (st.groups.length % KMAP_COLORS.length) "", term⟩],
       currentMinterms.foldl addUnique st.covered⟩
    else st
  else st

/-- solveKMap: greedy scan of all candidate shapes (largest area first) over
all origins, row-major. -/
def solveKMap (grid : List (List KMapCell)) (_onMinterms : List Nat)
    (rowVars colVars : List String) (rowGray colGray : List String) :
    List KMapGroup × String :=
  let rows := grid.length
  let cols := (grid.headD []).length
  let sizes := sortSizesByAreaDesc (buildSizes rows cols)
  let st := sizes.foldl
    (fun st size =>
      (List.range rows).foldl
        (fun st r =>
          (List.range cols).foldl
            (fun st c => tryRect grid rows cols rowVars colVars rowGray colGray size r c st)
            st)
        st)
      ⟨[], []⟩
  (st.groups, String.intercalate " ∨ " (st.groups.map (fun g => g.term)))

/-- generateKMap: defined for 2-4 variables; splits variables over the two
axes, reads each row's result from the last inserted value of its values
record, lays the minterms out on the Gray-code grid and runs the solver. -/
def generateKMap (vars0 : List String) (rows : List TruthTableRow) : Option KMapData :=
  let numVars := vars0.length
  if numVars < 2 || numVars > 4 then none
  else
    let rowVars := if numVars = 2 then vars0.take 1
      else if numVars = 3 then vars0.take 1
      else vars0.take 2
    let colVars := if numVars = 2 then vars0.drop 1
      else if numVars = 3 then vars0.drop 1
      else vars0.drop 2
    let rowGray := getGrayCode rowVars.length
    let colGray := getGrayCode colVars.length
    let mmOn := rows.foldl
      (fun (acc : AssocRec Nat Bool × List Nat) row =>
        let minterm := (vars0.enum.foldl
          (fun m (vi : Nat × String) =>
            if (row.values.lookupKey vi.2).getD false then
              m ||| (1 <<< (vars0.length - 1 - vi.1))
            else m)
          0)
        let resultVal := ((row.values.getLast?).map Prod.snd).getD false
        (acc.1.set minterm resultVal, if resultVal then addUnique acc.2 minterm else acc.2))
      ([], [])
    let mintermMap := mmOn.1
    let onMinterms := mmOn.2
    let grid := rowGray.map (fun rg =>
      colGray.map (fun cg =>
        let mintermIndex := parseBin (rg ++ cg)
        KMapCell.mk ((mintermMap.lookupKey mintermIndex).getD false) mintermIndex))
    let solved := solveKMap grid onMinterms rowVars colVars rowGray colGray
    some ⟨grid, rowGray, colGray, vars0, solved.1,
      if solved.2 = "" then (if onMinterms.isEmpty then "0" else "1") else solved.2⟩

-- ---------------------------------------------------------------------------
-- Main analysis (logic.ts lines 516-604)
-- ---------------------------------------------------------------------------

/-- Lexicographic comparison of strings by code points (the default JS
Array.sort comparator; code units and code points agree on every character
the tokenizer can produce). -/
def charListLt : List Char → List Char → Bool
  | [], [] => false
  | [], _ :: _ => true
  | _ :: _, [] => false
  | a :: as, b :: bs =>
    if a.val < b.val then true
    else if b.val < a.val then false
    else charListLt as bs

def strLtB (a b : String) : Bool := charListLt a.data b.data

/-- Ascending insertion sort with strLtB (JS default sort; the input is
duplicate-free, so stability is immaterial). -/
def insertAsc (v : String) : List String → List String
  | [] => [v]
  | w :: ws => if strLtB v w then v :: w :: ws else w :: insertAsc v ws

def sortStrAsc (l : List String) : List String := l.foldr insertAsc []

/-- extractVariablesFromExpression: the VAR token values other than the
literal constants, deduplicated in first-occurrence order (JS Set), then
sorted. -/
def extractVariablesFromExpression (expression : String) : List String :=
  let tokens := tokenize expression
  let varsSet := tokens.foldl
    (fun acc t =>
      if t.type = .VAR && !(t.value = "0" || t.value = "1") then addUnique acc t.value
      else acc)
    []
  sortStrAsc varsSet

/-- The message of the UndeclaredVariableError thrown by analyzeLogic. -/
def undeclaredMessage (undeclared : List String) : String :=
  "Variable" ++ (if undeclared.length > 1 then "s" else "") ++ " " ++
    String.intercalate ", " undeclared ++ " used but not declared."

/-- generateImplicationForms: only for an IMPLIES root; the clean helper
strips one layer of parentheses when the string both starts with '(' and
ends with ')'. -/
def cleanParen (s : String) : String :=
  if s.data.head? = some '(' && s.data.getLast? = some ')' then ⟨(s.data.drop 1).dropLast⟩
  else s

def generateImplicationForms (node : ASTNode) : Option ImplicationForms :=
  match node with
  | .IMPLIES _ l r _ _ =>
    let P := l.expression
    let Q := r.expression
    let pClean := cleanParen P
    let qClean := cleanParen Q
    some ⟨P ++ " → " ++ Q, Q ++ " → " ++ P,
      "¬(" ++ pClean ++ ") → ¬(" ++ qClean ++ ")",
      "¬(" ++ qClean ++ ") → ¬(" ++ pClean ++ ")"⟩
  | _ => none

/-- The evaluation context of row i: most-significant-first bits of
valIndex assigned to the declared variables in order. -/
def rowContext (declaredVariables : List String) (valIndex : Nat) : Rec :=
  declaredVariables.enum.foldl
    (fun acc (vi : Nat × String) =>
      acc.set vi.2 (((valIndex >>> (declaredVariables.length - 1 - vi.1)) &&& 1) = 1))
    []

/-- One column assignment of the row-generation loop: inputs from the
context, derived columns by evaluating the sub-expression node referenced
by the column (with the output column falling back to the root when its
node id is not found). -/
def buildRowStep (subExprNodes : List ASTNode) (ast : ASTNode) (context : Rec)
    (acc : Rec) (col : TableColumn) : Rec :=
  if col.isInput then acc.set col.expression ((context.lookupKey col.expression).getD false)
  else
    match subExprNodes.find? (fun n => some n.id = col.astId) with
    | some node => acc.set col.expression (evaluateAST node context)
    | none =>
      if col.isOutput then acc.set col.expression (evaluateAST ast context) else acc

/-- The values record of one row (the forEach over the columns). -/
def buildRowValues (finalColumns : List TableColumn) (subExprNodes : List ASTNode)
    (ast : ASTNode) (context : Rec) : Rec :=
  finalColumns.foldl (buildRowStep subExprNodes ast context) []

/-- The classification flags of the generation loop: tautology falls on the
first false root value, contradiction on the first true one. -/
def classifyFlags (rows : List TruthTableRow) (rootExpr : String) : Bool × Bool :=
  rows.foldl
    (fun (tc : Bool × Bool) row =>
      let finalResult := (row.values.lookupKey rootExpr).getD false
      if finalResult then (tc.1, false) else (false, tc.2))
    (true, true)

/-- The two sequential classification assignments of the source
(Contingency, overwritten by Tautology, overwritten by Contradiction). -/
def classificationOf (tautology contradiction : Bool) : Classification :=
  let c := if tautology then Classification.Tautology else Classification.Contingency
  if contradiction then Classification.Contradiction else c

/-- The undeclared-variable list of analyzeLogic. -/
def undeclaredOf (expression : String) (declaredVariables : List String) : List String :=
  (extractVariablesFromExpression expression).filter (fun v => !declaredVariables.contains v)

/-- The parsed AST of one analysis (logic.ts lines 526-528). -/
def analysisAst (expression : String) : ASTNode := Parser.parse (tokenize expression)

/-- The deduplicated sub-expression list of one analysis (line 534). -/
def subNodesOf (expression : String) : List ASTNode :=
  extractSubExpressions (analysisAst expression) []

/-- The input columns (line 535). -/
def varColumnsOf (declaredVariables : List String) : List TableColumn :=
  declaredVariables.map (fun v => ⟨"var-" ++ v, v, v, true, false, none, none⟩)

/-- The derived-step columns (line 536). -/
def stepColumnsOf (expression : String) (settings : AppSettings) : List TableColumn :=
  ((subNodesOf expression).filter
      (fun n => n.nodeType ≠ .VAR && n.expression ≠ (analysisAst expression).expression)).map
    (fun n => ⟨"node-" ++ natToDec n.id, formatLabel n.expression settings, n.expression,
      false, false, some n.id, some (getDirectDependencies n)⟩)

/-- The output column (line 537). -/
def resultColumnOf (expression : String) (settings : AppSettings) : TableColumn :=
  ⟨"node-" ++ natToDec (analysisAst expression).id,
    formatLabel (analysisAst expression).expression settings,
    (analysisAst expression).expression,
    false, true, some (analysisAst expression).id,
    some (getDirectDependencies (analysisAst expression))⟩

/-- The displayed column list (line 538). -/
def finalColumnsOf (expression : String) (declaredVariables : List String)
    (settings : AppSettings) : List TableColumn :=
  if settings.table.showSubExpressions then
    varColumnsOf declaredVariables ++ stepColumnsOf expression settings ++
      [resultColumnOf expression settings]
  else varColumnsOf declaredVariables ++ [resultColumnOf expression settings]

/-- The generated truth-table rows (lines 540-565). -/
def analysisRowsOf (expression : String) (declaredVariables : List String)
    (settings : AppSettings) : List TruthTableRow :=
  let numRows := 2 ^ declaredVariables.length
  (List.range numRows).map
    (fun i =>
      let valIndex := if settings.logic.rowOrder = .descending then numRows - 1 - i else i
      let context := rowContext declaredVariables valIndex
      ⟨"row-" ++ natToDec i,
        buildRowValues (finalColumnsOf expression declaredVariables settings)
          (subNodesOf expression) (analysisAst expression) context, i⟩)

/-- The success branch of analyzeLogic: build columns, rows and flags, and
assemble the artifact bundle (lines 534-578, split into the named
subcomputations above). -/
def analyzeLogicCore (expression : String) (declaredVariables : List String)
    (settings : AppSettings) : AnalysisResult :=
  let ast := analysisAst expression
  let rows := analysisRowsOf expression declaredVariables settings
  let flags := classifyFlags rows ast.expression
  let classification := classificationOf flags.1 flags.2
  let forms := generateImplicationForms ast
  let complexity := calculateComplexity ast
  ⟨ast, finalColumnsOf expression declaredVariables settings, rows, declaredVariables,
    classification, ast.nodeType,
    forms.map (fun f => ⟨formatLabel f.original settings, formatLabel f.converse settings,
      formatLabel f.inverse settings, formatLabel f.contrapositive settings⟩),
    generateKMap declaredVariables rows, analyzeRightAwayEngine ast,
    performSTTT rows ast.expression classification,
    ⟨complexity.operators, complexity.depth, declaredVariables.length,
      2 ^ declaredVariables.length⟩⟩

theorem analyzeLogicCore_rows (e : String) (vs : List String) (s : AppSettings) :
    (analyzeLogicCore e vs s).rows = analysisRowsOf e vs s := by
  simp only [analyzeLogicCore]

theorem analyzeLogicCore_ast (e : String) (vs : List String) (s : AppSettings) :
    (analyzeLogicCore e vs s).ast = analysisAst e := by
  simp only [analyzeLogicCore]

theorem analyzeLogicCore_classification (e : String) (vs : List String) (s : AppSettings) :
    (analyzeLogicCore e vs s).classification =
      classificationOf
        (classifyFlags (analysisRowsOf e vs s) (analysisAst e).expression).1
        (classifyFlags (analysisRowsOf e vs s) (analysisAst e).expression).2 := by
  simp only [analyzeLogicCore]

theorem analyzeLogicCore_columns (e : String) (vs : List String) (s : AppSettings) :
    (analyzeLogicCore e vs s).columns = finalColumnsOf e vs s := by
  simp only [analyzeLogicCore]

theorem analysisRowsOf_length (e : String) (vs : List String) (s : AppSettings) :
    (analysisRowsOf e vs s).length = 2 ^ vs.length := by
  simp [analysisRowsOf]

theorem analysisRowsOf_ne_nil (e : String) (vs : List String) (s : AppSettings) :
    analysisRowsOf e vs s ≠ [] := by
  intro hnil
  have hlen := analysisRowsOf_length e vs s
  rw [hnil] at hlen
  have h2 : 0 < 2 ^ vs.length := pow_pos (by norm_num) _
  simp at hlen
  omega

/-- analyzeLogic (logic.ts line 525): parse, check declared variables
(throw — here Except.error — naming all the offenders), and otherwise run
the analysis. -/
def analyzeLogic (expression : String) (declaredVariables : List String)
    (settings : AppSettings) : Except String AnalysisResult :=
  let undeclared := undeclaredOf expression declaredVariables
  if undeclared.length > 0 then .error (undeclaredMessage undeclared)
  else .ok (analyzeLogicCore expression declaredVariables settings)

/-- reanalyzeFromRows (logic.ts line 581): re-derive the classification,
K-map and STTT from an updated row list, keeping everything else. -/
def reanalyzeFromRows (current : AnalysisResult) (updatedRows : List TruthTableRow)
    (_settings : AppSettings) : AnalysisResult :=  -- settings is unused in the source too
  let flags := classifyFlags updatedRows current.ast.expression
  let classification := classificationOf flags.1 flags.2
  let kMapData := generateKMap current.vars updatedRows
  let sttt := performSTTT updatedRows current.ast.expression classification
  ⟨current.ast, current.columns, updatedRows, current.vars, classification,
    current.mainConnective, current.implicationForms, kMapData, current.rightAway,
    sttt, current.complexity⟩

-- ---------------------------------------------------------------------------
-- Helpers for exhibiting concrete analysis results
-- ---------------------------------------------------------------------------

/-- A throwaway AnalysisResult (never the value of a successful analysis
considered below; used only as the error-branch filler of analyzeLogicOk). -/
def defaultAnalysisResult : AnalysisResult :=
  ⟨.VAR 0 "?" "?" 0, [], [], [], .Contingency, .VAR, none, none, none, none, ⟨0, 0, 0, 0⟩⟩

/-- The successful result of analyzeLogic at a concrete input. -/
def analyzeLogicOk (expression : String) (declaredVariables : List String)
    (settings : AppSettings) : AnalysisResult :=
  match analyzeLogic expression declaredVariables settings with
  | .ok r => r
  | .error _ => defaultAnalysisResult

-- ---------------------------------------------------------------------------
-- Claim C1 (RightAway agreement with full enumeration)
-- ---------------------------------------------------------------------------

/-- C1: the claim (and spec section 8) demands that whenever the RightAway
engine produces a definite resultValue on the parsed root, it agrees with
the classification computed by full enumeration: resultValue true forces
Tautology and false forces Contradiction.  The code violates this.  On the
expression "X∧A∨B→X∧(A∨B" with declared variables A, B, X (which pass the
undeclared-variable check), the lenient bracket recovery makes the parser
build the root IMPLIES(OR(AND(X,A),B), AND(X,OR(A,B))) whose two children
both carry the expression string "X ∧ A ∨ B", so the self-implication
pattern fires with resultValue true, while full enumeration classifies the
expression as Contingency (the root is false at A=0, B=1, X=0 and true at
A=B=X=1).  This theorem evaluates the code at that failing input. -/
theorem c1_rightaway_contradicts_enumeration :
    analyzeLogic "X∧A∨B→X∧(A∨B" ["A", "B", "X"] DEFAULT_SETTINGS =
      .ok (analyzeLogicOk "X∧A∨B→X∧(A∨B" ["A", "B", "X"] DEFAULT_SETTINGS) ∧
    (analyzeLogicOk "X∧A∨B→X∧(A∨B" ["A", "B", "X"] DEFAULT_SETTINGS).rightAway =
      some ⟨true, some true, none, "Self-implication or Equivalence is always True."⟩ ∧
    (analyzeLogicOk "X∧A∨B→X∧(A∨B" ["A", "B", "X"] DEFAULT_SETTINGS).classification =
      .Contingency ∧
    Classification.Contingency ≠ Classification.Tautology :=
  ⟨rfl, by decide, by decide, by decide⟩

-- ---------------------------------------------------------------------------
-- Claim C7 (implication forms)
-- ---------------------------------------------------------------------------

/-- C7: the claim (and spec section 8) demands that the contrapositive
string produced by generateImplicationForms, when tokenized, parsed and
evaluated, has the same truth value as the original implication under
every assignment.  The code violates this: for the parsed root of
"(A)∧(B)→C" the clean helper strips the outer characters of the
antecedent string "(A) ∧ (B)" into "A) ∧ (B", so the produced
contrapositive is "¬(C) → ¬(A) ∧ (B)", which reparses as
¬(C) → (¬(A) ∧ (B)) and evaluates to false at A=0, B=0, C=0 while the
original implication evaluates to true there.  This theorem evaluates the
code at that failing input. -/
theorem c7_contrapositive_not_equivalent :
    generateImplicationForms (Parser.parse (tokenize "(A)∧(B)→C")) =
      some ⟨"(A) ∧ (B) → C", "C → (A) ∧ (B)", "¬(A) ∧ (B) → ¬(C)", "¬(C) → ¬(A) ∧ (B)"⟩ ∧
    evaluateRawExpression "¬(C) → ¬(A) ∧ (B)" [("A", false), ("B", false), ("C", false)] = false ∧
    evaluateAST (Parser.parse (tokenize "(A)∧(B)→C"))
      [("A", false), ("B", false), ("C", false)] = true :=
  ⟨by decide, by decide, by decide⟩

-- ---------------------------------------------------------------------------
-- Claim C8 (formatLabel simplify)
-- ---------------------------------------------------------------------------

/-- C8 counterexample: the claim states that with negation_handling set to
simplify, an input consisting solely of an even number of negation symbols
(for example "¬¬") is cancelled down to the empty string.  In fact the
simplify branch returns `normalized || '¬¬'`, so the empty cancellation
result is replaced by the literal label "¬¬". -/
theorem c8_even_negations_not_empty :
    formatLabel "¬¬"
      ⟨⟨.simplify, .zeroOne, .ascending⟩, ⟨true, true, true, false⟩, ⟨false, none⟩⟩ = "¬¬" ∧
    ("¬¬" : String) ≠ "" := by
  exact ⟨by decide, by decide⟩

/-- Cancelling a run of an even number of negation signs empties it. -/
theorem removeNegPairs_replicate (k : Nat) :
    removeNegPairs (List.replicate (2 * k) '¬') = [] := by
  induction k with
  | zero => rfl
  | succ n ih =>
    have h : 2 * (n + 1) = 2 * n + 1 + 1 := by ring
    rw [h, List.replicate_succ, List.replicate_succ, removeNegPairs, ih]

/-- C8 (amended): with negation_handling set to simplify, formatLabel
cancels double-negation pairs down to a single literal, and an input
consisting solely of an even number of negation symbols (in any of the
spellings -, !, ~, ¬) produces the non-empty fallback label "¬¬" rather
than the empty string. -/
theorem c8_even_negations_fallback (k : Nat) (cs : List Char) (settings : AppSettings)
    (hset : settings.logic.negationHandling = .simplify)
    (hlen : cs.length = 2 * k)
    (hneg : ∀ c ∈ cs, c = '-' ∨ c = '!' ∨ c = '~' ∨ c = '¬') :
    formatLabel ⟨cs⟩ settings = "¬¬" := by
  have hmap : cs.map normalizeNegChar = List.replicate (2 * k) '¬' := by
    rw [List.eq_replicate_iff]
    constructor
    · simpa using hlen
    · intro b hb
      obtain ⟨c, hc, hcb⟩ := List.mem_map.1 hb
      rcases hneg c hc with h | h | h | h <;> simp [← hcb, normalizeNegChar, h]
  have hpres : ¬(settings.logic.negationHandling = .preserve) := by
    rw [hset]; decide
  have hnorm : ¬(settings.logic.negationHandling = .normalize) := by
    rw [hset]; decide
  rw [formatLabel]
  simp only [hpres, if_false, hnorm, hmap]
  cases k with
  | zero => decide
  | succ n =>
    have hrep : removeNegPairs (List.replicate (2 * (n + 1)) '¬') = [] :=
      removeNegPairs_replicate (n + 1)
    have hne : List.replicate (2 * (n + 1)) '¬' ≠ ([] : List Char) := by
      intro h
      have := congrArg List.length h
      simp at this
    have hlenrep : (List.replicate (2 * (n + 1)) '¬').length + 1 = 2 * (n + 1) + 1 := by
      simp
    rw [hlenrep]
    have h2 : 2 * (n + 1) + 1 = (2 * n + 1) + 1 + 1 := by ring
    rw [h2, simplifyNegLoop, hrep]
    simp only [if_neg (Ne.symm hne)]
    rw [simplifyNegLoop]
    simp [removeNegPairs]

/-- C8 amended-claim witness at the concrete input "¬¬". -/
theorem c8_even_negations_fallback_witness :
    formatLabel "¬¬"
      ⟨⟨.simplify, .zeroOne, .ascending⟩, ⟨true, true, true, false⟩, ⟨false, none⟩⟩ = "¬¬" :=
  c8_even_negations_fallback 1 ['¬', '¬']
    ⟨⟨.simplify, .zeroOne, .ascending⟩, ⟨true, true, true, false⟩, ⟨false, none⟩⟩
    rfl (by decide) (by decide)

-- ---------------------------------------------------------------------------
-- Claim C3 (classification consistency)
-- ---------------------------------------------------------------------------

/-- analyzeLogic succeeds exactly by returning the success-branch record. -/
theorem analyzeLogic_ok_elim {e : String} {vs : List String} {s : AppSettings}
    {res : AnalysisResult} (h : analyzeLogic e vs s = .ok res) :
    res = analyzeLogicCore e vs s := by
  by_cases hc : (undeclaredOf e vs).length > 0
  · simp [analyzeLogic, hc] at h
  · simp [analyzeLogic, hc] at h
    exact h.symm

/-- The generation-loop flags, characterized: tautology survives iff every
row's root value reads true, contradiction iff every row's root value
reads false. -/
theorem classifyFlags_go (rows : List TruthTableRow) (e : String) (t c : Bool) :
    rows.foldl
      (fun (tc : Bool × Bool) row =>
        let finalResult := (row.values.lookupKey e).getD false
        if finalResult then (tc.1, false) else (false, tc.2))
      (t, c) =
    (t && rows.all (fun r => (r.values.lookupKey e).getD false),
     c && rows.all (fun r => !(r.values.lookupKey e).getD false)) := by
  induction rows generalizing t c with
  | nil => simp
  | cons r rs ih =>
    simp only [List.foldl_cons, List.all_cons]
    cases hv : (r.values.lookupKey e).getD false <;>
      simp [hv, ih, Bool.and_assoc]

theorem classifyFlags_fst (rows : List TruthTableRow) (e : String) :
    (classifyFlags rows e).1 = rows.all (fun r => (r.values.lookupKey e).getD false) := by
  rw [classifyFlags, classifyFlags_go]
  simp

theorem classifyFlags_snd (rows : List TruthTableRow) (e : String) :
    (classifyFlags rows e).2 = rows.all (fun r => !(r.values.lookupKey e).getD false) := by
  rw [classifyFlags, classifyFlags_go]
  simp

/-- The consistency property claimed for the classification field relative
to a row list and the root expression key. -/
def ClassificationConsistent (rows : List TruthTableRow) (rootExpr : String)
    (cl : Classification) : Prop :=
  (cl = .Tautology ↔ ∀ r ∈ rows, (r.values.lookupKey rootExpr).getD false = true) ∧
  (cl = .Contradiction ↔ ∀ r ∈ rows, (r.values.lookupKey rootExpr).getD false = false) ∧
  (cl = .Contingency ↔
    (∃ r ∈ rows, (r.values.lookupKey rootExpr).getD false = true) ∧
    (∃ r ∈ rows, (r.values.lookupKey rootExpr).getD false = false))

/-- Core consistency lemma: on a nonempty row list, the two sequential flag
assignments produce a classification satisfying all three biconditionals. -/
theorem classificationOf_consistent (rows : List TruthTableRow) (e : String)
    (hne : rows ≠ []) :
    ClassificationConsistent rows e
      (classificationOf (classifyFlags rows e).1 (classifyFlags rows e).2) := by
  obtain ⟨r0, hr0⟩ := List.exists_mem_of_ne_nil rows hne
  rw [classifyFlags_fst, classifyFlags_snd]
  unfold classificationOf ClassificationConsistent
  cases hA : rows.all (fun r => (r.values.lookupKey e).getD false) <;>
    cases hB : rows.all (fun r => !(r.values.lookupKey e).getD false)
  · -- neither all-true nor all-false: Contingency
    have hA' : ∃ r ∈ rows, (r.values.lookupKey e).getD false = false := by
      have := List.all_eq_false.1 hA
      simpa using this
    have hB' : ∃ r ∈ rows, (r.values.lookupKey e).getD false = true := by
      have := List.all_eq_false.1 hB
      simpa using this
    obtain ⟨rf, hrf, hvf⟩ := hA'
    obtain ⟨rt, hrt, hvt⟩ := hB'
    refine ⟨iff_of_false (by decide) ?_, iff_of_false (by decide) ?_,
      iff_of_true rfl ⟨⟨rt, hrt, hvt⟩, ⟨rf, hrf, hvf⟩⟩⟩
    · intro hall
      have := hall rf hrf
      rw [hvf] at this
      cases this
    · intro hall
      have := hall rt hrt
      rw [hvt] at this
      cases this
  · -- all rows false: Contradiction
    have hBall : ∀ r ∈ rows, (r.values.lookupKey e).getD false = false := by
      have := List.all_eq_true.1 hB
      simpa using this
    refine ⟨iff_of_false (by decide) ?_, iff_of_true rfl hBall,
      iff_of_false (by decide) ?_⟩
    · intro hall
      have h1 := hall r0 hr0
      have h2 := hBall r0 hr0
      rw [h1] at h2
      cases h2
    · rintro ⟨⟨r1, hr1, hv1⟩, -⟩
      have := hBall r1 hr1
      rw [hv1] at this
      cases this
  · -- all rows true: Tautology
    have hAall : ∀ r ∈ rows, (r.values.lookupKey e).getD false = true :=
      fun r hr => List.all_eq_true.1 hA r hr
    refine ⟨iff_of_true rfl hAall, iff_of_false (by decide) ?_,
      iff_of_false (by decide) ?_⟩
    · intro hall
      have h1 := hall r0 hr0
      have h2 := hAall r0 hr0
      rw [h1] at h2
      cases h2
    · rintro ⟨-, ⟨r1, hr1, hv1⟩⟩
      have := hAall r1 hr1
      rw [hv1] at this
      cases this
  · -- all rows both true and false: impossible on a nonempty list
    have h1 := List.all_eq_true.1 hA r0 hr0
    have h2 := List.all_eq_true.1 hB r0 hr0
    simp only [Bool.not_eq_true'] at h2
    rw [h2] at h1
    cases h1

/-- C3 counterexample: the claim as stated also covers every result
produced by reanalyzeFromRows, but on the empty row list the sequential
flag overwrites classify as Contradiction while "every row's root value is
true" holds vacuously, so the Tautology biconditional fails. -/
theorem c3_counterexample_empty_rows :
    (∀ r ∈ (reanalyzeFromRows (analyzeLogicOk "P" ["P"] DEFAULT_SETTINGS) []
        DEFAULT_SETTINGS).rows,
      (r.values.lookupKey (reanalyzeFromRows (analyzeLogicOk "P" ["P"] DEFAULT_SETTINGS) []
          DEFAULT_SETTINGS).ast.expression).getD false = true) ∧
    (reanalyzeFromRows (analyzeLogicOk "P" ["P"] DEFAULT_SETTINGS) []
        DEFAULT_SETTINGS).classification = .Contradiction ∧
    (reanalyzeFromRows (analyzeLogicOk "P" ["P"] DEFAULT_SETTINGS) []
        DEFAULT_SETTINGS).classification ≠ .Tautology := by
  refine ⟨?_, by decide, by decide⟩
  intro r hr
  simp [reanalyzeFromRows] at hr

/-- C3 (amended): for every analysis result produced by analyzeLogic, and
for every result produced by reanalyzeFromRows from a nonempty row list
(analyzeLogic itself always produces the nonempty 2^n rows), the
classification field is Tautology iff every row's root-column value is
true, Contradiction iff every row's root-column value is false, and
Contingency otherwise. -/
theorem c3_classification_consistent :
    (∀ (e : String) (vs : List String) (s : AppSettings) (res : AnalysisResult),
      analyzeLogic e vs s = .ok res →
        ClassificationConsistent res.rows res.ast.expression res.classification) ∧
    (∀ (current : AnalysisResult) (updatedRows : List TruthTableRow) (s : AppSettings),
      updatedRows ≠ [] →
        ClassificationConsistent updatedRows current.ast.expression
          (reanalyzeFromRows current updatedRows s).classification) := by
  constructor
  · intro e vs s res h
    rw [analyzeLogic_ok_elim h, analyzeLogicCore_rows, analyzeLogicCore_ast,
      analyzeLogicCore_classification]
    exact classificationOf_consistent _ _ (analysisRowsOf_ne_nil e vs s)
  · intro current updatedRows s hne
    have hcl : (reanalyzeFromRows current updatedRows s).classification =
        classificationOf (classifyFlags updatedRows current.ast.expression).1
          (classifyFlags updatedRows current.ast.expression).2 := rfl
    rw [hcl]
    exact classificationOf_consistent _ _ hne

/-- C3 amended-claim witness: the biconditionals instantiated at the
concrete contradiction P∧¬P over variable list [P]. -/
theorem c3_classification_consistent_witness :
    ClassificationConsistent (analyzeLogicOk "P∧¬P" ["P"] DEFAULT_SETTINGS).rows
      (analyzeLogicOk "P∧¬P" ["P"] DEFAULT_SETTINGS).ast.expression
      (analyzeLogicOk "P∧¬P" ["P"] DEFAULT_SETTINGS).classification :=
  c3_classification_consistent.1 "P∧¬P" ["P"] DEFAULT_SETTINGS
    (analyzeLogicOk "P∧¬P" ["P"] DEFAULT_SETTINGS) rfl

-- ---------------------------------------------------------------------------
-- Record-lookup lemmas (shared infrastructure)
-- ---------------------------------------------------------------------------

theorem AssocRec.lookupKey_nil {κ ν : Type} [DecidableEq κ] (k : κ) :
    AssocRec.lookupKey ([] : AssocRec κ ν) k = none := rfl

theorem AssocRec.lookupKey_cons {κ ν : Type} [DecidableEq κ]
    (p : κ × ν) (ps : AssocRec κ ν) (k : κ) :
    AssocRec.lookupKey (p :: ps) k =
      if p.1 = k then some p.2 else AssocRec.lookupKey ps k := by
  by_cases hp : p.1 = k <;> simp [AssocRec.lookupKey, List.find?_cons, hp]

theorem AssocRec.lookupKey_map_update_self {κ ν : Type} [DecidableEq κ]
    (ps : AssocRec κ ν) (k : κ) (v : ν) (hany : ps.any (fun p => p.1 = k) = true) :
    AssocRec.lookupKey (ps.map (fun p => if p.1 = k then (k, v) else p)) k = some v := by
  induction ps with
  | nil => simp at hany
  | cons p ps ih =>
    by_cases hp : p.1 = k
    · simp [List.map_cons, hp, AssocRec.lookupKey_cons]
    · simp only [List.any_cons, Bool.or_eq_true, decide_eq_true_eq] at hany
      rcases hany with h | h
      · exact absurd h hp
      · rw [List.map_cons, if_neg hp, AssocRec.lookupKey_cons, if_neg hp]
        exact ih (by simpa using h)

theorem AssocRec.lookupKey_map_update_ne {κ ν : Type} [DecidableEq κ]
    (ps : AssocRec κ ν) (k : κ) (v : ν) (k' : κ) (h : k' ≠ k) :
    AssocRec.lookupKey (ps.map (fun p => if p.1 = k then (k, v) else p)) k' =
      ps.lookupKey k' := by
  induction ps with
  | nil => rfl
  | cons p ps ih =>
    rw [List.map_cons, AssocRec.lookupKey_cons, AssocRec.lookupKey_cons]
    by_cases hp : p.1 = k
    · rw [if_pos hp, ih]
      have h1 : ¬((k, v).1 = k') := fun hh => h hh.symm
      have h2 : ¬(p.1 = k') := by rw [hp]; exact fun hh => h hh.symm
      rw [if_neg h1, if_neg h2]
    · rw [if_neg hp, ih]

theorem AssocRec.lookupKey_append {κ ν : Type} [DecidableEq κ]
    (ps qs : AssocRec κ ν) (k : κ) :
    AssocRec.lookupKey (ps ++ qs) k =
      (AssocRec.lookupKey ps k).orElse (fun _ => AssocRec.lookupKey qs k) := by
  induction ps with
  | nil => simp [AssocRec.lookupKey_nil, Option.orElse]
  | cons p ps ih =>
    rw [List.cons_append, AssocRec.lookupKey_cons, AssocRec.lookupKey_cons]
    by_cases hp : p.1 = k
    · simp [hp, Option.orElse]
    · simp [hp, ih]

theorem AssocRec.lookupKey_eq_none_of_not_any {κ ν : Type} [DecidableEq κ]
    (r : AssocRec κ ν) (k : κ) (hany : ¬(r.any (fun p => p.1 = k) = true)) :
    AssocRec.lookupKey r k = none := by
  induction r with
  | nil => rfl
  | cons p ps ih =>
    simp only [List.any_cons, Bool.or_eq_true, decide_eq_true_eq, not_or] at hany
    rw [AssocRec.lookupKey_cons, if_neg hany.1]
    exact ih (by simp [hany.2])

theorem AssocRec.lookupKey_set_self {κ ν : Type} [DecidableEq κ]
    (r : AssocRec κ ν) (k : κ) (v : ν) : (r.set k v).lookupKey k = some v := by
  rw [AssocRec.set]
  split
  · next hany => exact AssocRec.lookupKey_map_update_self r k v hany
  · next hany =>
    rw [AssocRec.lookupKey_append,
      AssocRec.lookupKey_eq_none_of_not_any r k hany]
    simp [AssocRec.lookupKey_cons, Option.orElse]

theorem AssocRec.lookupKey_set_ne {κ ν : Type} [DecidableEq κ]
    (r : AssocRec κ ν) (k : κ) (v : ν) (k' : κ) (h : k' ≠ k) :
    (r.set k v).lookupKey k' = r.lookupKey k' := by
  rw [AssocRec.set]
  split
  · exact AssocRec.lookupKey_map_update_ne r k v k' h
  · rw [AssocRec.lookupKey_append]
    have hq : AssocRec.lookupKey [(k, v)] k' = none := by
      rw [AssocRec.lookupKey_cons, if_neg (fun hh => h hh.symm)]
      rfl
    rw [hq]
    cases r.lookupKey k' <;> simp [Option.orElse]

/-- Folding assignments whose keys all differ from k leaves k's lookup
untouched. -/
theorem AssocRec.lookupKey_foldl_set_ne {κ ν α : Type} [DecidableEq κ]
    (l : List α) (key : α → κ) (val : α → ν) (init : AssocRec κ ν) (k : κ)
    (h : ∀ x ∈ l, key x ≠ k) :
    (l.foldl (fun acc x => acc.set (key x) (val x)) init).lookupKey k =
      init.lookupKey k := by
  induction l generalizing init with
  | nil => rfl
  | cons x xs ih =>
    rw [List.foldl_cons, ih _ (fun y hy => h y (List.mem_cons_of_mem _ hy)),
      AssocRec.lookupKey_set_ne _ _ _ _
        (fun hk => (h x (List.mem_cons_self _ _)) hk.symm)]

/-- The row context only binds the declared variables. -/
theorem rowContext_lookupKey_not_mem (vs : List String) (valIndex : Nat) (k : String)
    (hk : ∀ v ∈ vs, v ≠ k) : (rowContext vs valIndex).lookupKey k = none := by
  rw [rowContext]
  rw [AssocRec.lookupKey_foldl_set_ne vs.enum (fun vi => vi.2) _ [] k ?hke]
  · rfl
  case hke =>
    intro x hx
    have hx2 : x.2 ∈ vs.enum.map Prod.snd := List.mem_map_of_mem _ hx
    rw [List.enum_map_snd] at hx2
    exact hk x.2 hx2


-- ---------------------------------------------------------------------------
-- Claim C9 (token-free inputs analyze to the false placeholder)
-- ---------------------------------------------------------------------------

/-- C9 counterexample: the claim as stated quantifies over every non-empty
declared-variable list, but when "?" itself is declared, the placeholder
root looks "?" up in the row context, so the rows split false/true and the
classification is Contingency, not Contradiction. -/
theorem c9_counterexample_declared_question_mark :
    (["?"] : List String) ≠ [] ∧
    tokenize "" = [⟨.EOF, ""⟩] ∧
    analyzeLogic "" ["?"] DEFAULT_SETTINGS = .ok (analyzeLogicOk "" ["?"] DEFAULT_SETTINGS) ∧
    (analyzeLogicOk "" ["?"] DEFAULT_SETTINGS).classification = .Contingency ∧
    (analyzeLogicOk "" ["?"] DEFAULT_SETTINGS).classification ≠ .Contradiction :=
  ⟨by decide, by decide, rfl, by decide, by decide⟩

/-- C9 (amended): for every declared-variable list that is non-empty and
does not contain the placeholder symbol "?", and every input string whose
token stream is empty (only the EOF marker — e.g. the empty string, or a
string of only unrecognized characters), analyzeLogic returns without
error, the AST root is the placeholder variable node '?', every row's
output-column value is false, and the classification is Contradiction. -/
theorem c9_empty_tokens_contradiction (s : String) (vs : List String)
    (settings : AppSettings) (_hvs : vs ≠ []) (hq : ¬ vs.contains "?")
    (htok : tokenize s = [⟨.EOF, ""⟩]) :
    analyzeLogic s vs settings = .ok (analyzeLogicCore s vs settings) ∧
    (analyzeLogicCore s vs settings).ast = .VAR 0 "?" "?" 0 ∧
    (∀ r ∈ (analyzeLogicCore s vs settings).rows,
      r.values.lookupKey (analyzeLogicCore s vs settings).ast.expression = some false) ∧
    (analyzeLogicCore s vs settings).classification = .Contradiction := by
  have hast : analysisAst s = .VAR 0 "?" "?" 0 := by
    rw [analysisAst, htok]
    decide
  have hused : extractVariablesFromExpression s = [] := by
    rw [extractVariablesFromExpression, htok]
    decide
  have hund : undeclaredOf s vs = [] := by
    rw [undeclaredOf, hused]
    rfl
  have hok : analyzeLogic s vs settings = .ok (analyzeLogicCore s vs settings) := by
    rw [analyzeLogic, hund]
    rfl
  have hsub : subNodesOf s = [.VAR 0 "?" "?" 0] := by
    rw [subNodesOf, hast]
    rfl
  have hstep : stepColumnsOf s settings = [] := by
    rw [stepColumnsOf, hsub, hast]
    rfl
  have hcols : finalColumnsOf s vs settings =
      varColumnsOf vs ++ [resultColumnOf s settings] := by
    rw [finalColumnsOf, hstep]
    split <;> simp
  have hqmem : ∀ v ∈ vs, v ≠ "?" := by
    intro v hv heq
    subst heq
    exact hq (List.elem_eq_true_of_mem hv)
  have hrescol : resultColumnOf s settings =
      ⟨"node-" ++ natToDec 0, formatLabel "?" settings, "?", false, true, some 0, some []⟩ := by
    rw [resultColumnOf, hast]
    rfl
  have hbuild : ∀ ctx : Rec, ctx.lookupKey "?" = none →
      (buildRowValues (finalColumnsOf s vs settings) (subNodesOf s) (analysisAst s)
        ctx).lookupKey "?" = some false := by
    intro ctx hctx
    rw [buildRowValues, hcols, List.foldl_append, List.foldl_cons, List.foldl_nil,
      hrescol, hsub, hast]
    simp [buildRowStep, ASTNode.id, evaluateAST, hctx, AssocRec.lookupKey_set_self]
  have hexpr : (analyzeLogicCore s vs settings).ast.expression = "?" := by
    rw [analyzeLogicCore_ast, hast]
    rfl
  have hrowvals : ∀ r ∈ analysisRowsOf s vs settings,
      r.values.lookupKey "?" = some false := by
    intro r hr
    rw [analysisRowsOf] at hr
    simp only [List.mem_map, List.mem_range] at hr
    obtain ⟨i, -, rfl⟩ := hr
    dsimp only
    exact hbuild _ (rowContext_lookupKey_not_mem vs _ "?" hqmem)
  refine ⟨hok, by rw [analyzeLogicCore_ast, hast], ?_, ?_⟩
  · intro r hr
    rw [analyzeLogicCore_rows] at hr
    rw [hexpr]
    exact hrowvals r hr
  · rw [analyzeLogicCore_classification, classifyFlags_snd]
    have hall : (analysisRowsOf s vs settings).all
        (fun r => !(r.values.lookupKey (analysisAst s).expression).getD false) = true := by
      apply List.all_eq_true.2
      intro r hr
      have hv := hrowvals r hr
      have hexpr2 : (analysisAst s).expression = "?" := by rw [hast]; rfl
      rw [hexpr2, hv]
      rfl
    rw [hall]
    simp [classificationOf]

/-- C9 amended-claim witness at the concrete input "@#" (only unrecognized
characters) over the declared list [P]. -/
theorem c9_empty_tokens_contradiction_witness :
    analyzeLogic "@#" ["P"] DEFAULT_SETTINGS =
      .ok (analyzeLogicCore "@#" ["P"] DEFAULT_SETTINGS) ∧
    (analyzeLogicCore "@#" ["P"] DEFAULT_SETTINGS).ast = .VAR 0 "?" "?" 0 ∧
    (∀ r ∈ (analyzeLogicCore "@#" ["P"] DEFAULT_SETTINGS).rows,
      r.values.lookupKey (analyzeLogicCore "@#" ["P"] DEFAULT_SETTINGS).ast.expression =
        some false) ∧
    (analyzeLogicCore "@#" ["P"] DEFAULT_SETTINGS).classification = .Contradiction :=
  c9_empty_tokens_contradiction "@#" ["P"] DEFAULT_SETTINGS (by decide) (by decide) (by decide)

-- ---------------------------------------------------------------------------
-- Claim C6 (undeclared-variable error)
-- ---------------------------------------------------------------------------

theorem mem_addUnique {α : Type} [DecidableEq α] (l : List α) (a v : α) :
    v ∈ addUnique l a ↔ v ∈ l ∨ v = a := by
  rw [addUnique]
  split
  · next h =>
    constructor
    · exact fun hv => Or.inl hv
    · rintro (hv | rfl)
      · exact hv
      · exact List.mem_of_elem_eq_true h
  · simp

theorem mem_insertAsc (x v : String) (l : List String) :
    v ∈ insertAsc x l ↔ v = x ∨ v ∈ l := by
  induction l with
  | nil => simp [insertAsc]
  | cons w ws ih =>
    rw [insertAsc]
    split
    · simp
    · simp [ih]
      tauto

theorem mem_sortStrAsc (l : List String) (v : String) : v ∈ sortStrAsc l ↔ v ∈ l := by
  rw [sortStrAsc]
  induction l with
  | nil => simp
  | cons x xs ih =>
    rw [List.foldr_cons, mem_insertAsc, ih]
    simp

theorem mem_varFold (tokens : List Token) (acc0 : List String) (v : String) :
    v ∈ tokens.foldl
      (fun acc t =>
        if t.type = .VAR && !(t.value = "0" || t.value = "1") then addUnique acc t.value
        else acc) acc0 ↔
    v ∈ acc0 ∨ ∃ t ∈ tokens, t.type = .VAR ∧ t.value ≠ "0" ∧ t.value ≠ "1" ∧ t.value = v := by
  induction tokens generalizing acc0 with
  | nil => simp
  | cons t ts ih =>
    rw [List.foldl_cons]
    by_cases hp : (t.type = TokType.VAR && !(t.value = "0" || t.value = "1")) = true
    · rw [if_pos hp, ih, mem_addUnique]
      simp only [Bool.and_eq_true, Bool.not_eq_true', Bool.or_eq_false_iff,
        decide_eq_true_eq, decide_eq_false_iff_not] at hp
      constructor
      · rintro (⟨hv | rfl⟩ | ⟨t', ht', h⟩)
        · exact Or.inl hv
        · exact Or.inr ⟨t, List.mem_cons_self _ _, hp.1, hp.2.1, hp.2.2, rfl⟩
        · exact Or.inr ⟨t', List.mem_cons_of_mem _ ht', h⟩
      · rintro (hv | ⟨t', ht', h⟩)
        · exact Or.inl (Or.inl hv)
        · rcases List.mem_cons.1 ht' with rfl | ht''
          · exact Or.inl (Or.inr h.2.2.2.symm)
          · exact Or.inr ⟨t', ht'', h⟩
    · rw [if_neg hp, ih]
      simp only [Bool.and_eq_true, Bool.not_eq_true', Bool.or_eq_false_iff,
        decide_eq_true_eq, decide_eq_false_iff_not, not_and] at hp
      constructor
      · rintro (hv | ⟨t', ht', h⟩)
        · exact Or.inl hv
        · exact Or.inr ⟨t', List.mem_cons_of_mem _ ht', h⟩
      · rintro (hv | ⟨t', ht', h⟩)
        · exact Or.inl hv
        · rcases List.mem_cons.1 ht' with rfl | ht''
          · exact absurd h.2.1 (by have := hp h.1; tauto)
          · exact Or.inr ⟨t', ht'', h⟩

theorem mem_extractVariables (e : String) (v : String) :
    v ∈ extractVariablesFromExpression e ↔
      ∃ t ∈ tokenize e, t.type = .VAR ∧ t.value ≠ "0" ∧ t.value ≠ "1" ∧ t.value = v := by
  rw [extractVariablesFromExpression, mem_sortStrAsc, mem_varFold]
  simp

theorem mem_undeclaredOf (e : String) (vs : List String) (v : String) :
    v ∈ undeclaredOf e vs ↔
      (∃ t ∈ tokenize e, t.type = .VAR ∧ t.value ≠ "0" ∧ t.value ≠ "1" ∧ t.value = v) ∧
        ¬ vs.contains v := by
  rw [undeclaredOf, List.mem_filter, mem_extractVariables]
  simp

/-- C6: analyzeLogic fails if and only if the token stream contains a
variable token (a symbol other than the literal constants "0" and "1")
whose value is absent from the declared-variable list; the error message
is exactly the plural-aware undeclaredMessage over the offending-symbol
list, that list holds precisely the offending symbols, and a failing call
produces no analysis result (hence no truth-table rows). -/
theorem c6_undeclared_error (expression : String) (vs : List String) (s : AppSettings) :
    ((∃ msg, analyzeLogic expression vs s = .error msg) ↔
      ∃ t ∈ tokenize expression, t.type = .VAR ∧ t.value ≠ "0" ∧ t.value ≠ "1" ∧
        ¬ vs.contains t.value) ∧
    (∀ msg, analyzeLogic expression vs s = .error msg →
      msg = undeclaredMessage (undeclaredOf expression vs)) ∧
    (∀ v, v ∈ undeclaredOf expression vs ↔
      (∃ t ∈ tokenize expression, t.type = .VAR ∧ t.value ≠ "0" ∧ t.value ≠ "1" ∧
        t.value = v) ∧ ¬ vs.contains v) ∧
    (∀ msg, analyzeLogic expression vs s = .error msg →
      ∀ res, ¬ analyzeLogic expression vs s = .ok res) := by
  have hiff : (undeclaredOf expression vs ≠ []) ↔
      ∃ t ∈ tokenize expression, t.type = .VAR ∧ t.value ≠ "0" ∧ t.value ≠ "1" ∧
        ¬ vs.contains t.value := by
    constructor
    · intro hne
      obtain ⟨v, hv⟩ := List.exists_mem_of_ne_nil _ hne
      obtain ⟨⟨t, ht, h1, h2, h3, h4⟩, h5⟩ := (mem_undeclaredOf expression vs v).1 hv
      exact ⟨t, ht, h1, h2, h3, h4 ▸ h5⟩
    · rintro ⟨t, ht, h1, h2, h3, h4⟩ hnil
      have hv : t.value ∈ undeclaredOf expression vs :=
        (mem_undeclaredOf expression vs t.value).2 ⟨⟨t, ht, h1, h2, h3, rfl⟩, h4⟩
      rw [hnil] at hv
      cases hv
  refine ⟨?_, ?_, mem_undeclaredOf expression vs, ?_⟩
  · rw [← hiff]
    constructor
    · rintro ⟨msg, hmsg⟩ hnil
      rw [analyzeLogic, hnil] at hmsg
      cases hmsg
    · intro hne
      have hlen : (undeclaredOf expression vs).length > 0 := List.length_pos.2 hne
      refine ⟨undeclaredMessage (undeclaredOf expression vs), ?_⟩
      rw [analyzeLogic]
      simp [hlen]
  · intro msg h
    by_cases hc : (undeclaredOf expression vs).length > 0
    · rw [analyzeLogic] at h
      simp only [hc, if_true] at h
      cases h
      rfl
    · rw [analyzeLogic] at h
      simp only [hc, if_false] at h
      cases h
  · intro msg h res hok
    rw [h] at hok
    cases hok

/-- C6 witness: at expression "A∧B" with only A declared, the error is
raised with the singular message naming B. -/
theorem c6_undeclared_error_witness :
    ("Variable B used but not declared." : String) =
      undeclaredMessage (undeclaredOf "A∧B" ["A"]) :=
  (c6_undeclared_error "A∧B" ["A"] DEFAULT_SETTINGS).2.1 "Variable B used but not declared." rfl

-- ---------------------------------------------------------------------------
-- Claim C5 (lenient tokenizing/parsing never fails)
-- ---------------------------------------------------------------------------

/-- C5: the tokenize-then-parse pipeline is a total function returning an
AST for every input string (first conjunct: Parser.parse of the token
stream is the first component of the underlying total parse run);
an unrecognized character produces no token (the scanner just moves on);
a mismatched or missing close bracket makes parseFactor return the inner
AST with the offending token left unconsumed (the returned state is
exactly the inner parse's end state, its cursor not advanced); and an
unexpected token where an atom is expected is consumed (cursor advanced by
one) and replaced by a fresh placeholder variable node with symbol '?'. -/
theorem c5_lenient_recovery :
    (∀ input : String,
      Parser.parse (tokenize input) =
        (parseGo (parseFuel (tokenize input)) .iff noLeft ⟨tokenize input, 0, 0⟩).1) ∧
    (∀ (fuel : Nat) (c : Char) (rest : List Char),
      findOpMatch (c :: rest) = none →
      isSymbolOrBracket c = false →
      (isUpperAlpha c || c = '1' || c = '0') = false →
      c ≠ '-' →
      tokenizeGo (fuel + 1) (c :: rest) = tokenizeGo fuel rest) ∧
    (∀ (fuel : Nat) (st : ParserState) (node : ASTNode) (st2 : ParserState),
      ((Parser.peek st).type = .LPAREN ∨ (Parser.peek st).type = .LBRACKET ∨
        (Parser.peek st).type = .LBRACE) →
      parseGo fuel .iff noLeft (Parser.consume st).2 = (node, st2) →
      (Parser.peek st2).type ≠ expectedCloseTypeOf (Parser.peek st).type →
      parseFactor (fuel + 1) st = (node, st2)) ∧
    (∀ (fuel : Nat) (st : ParserState),
      ¬((Parser.peek st).type = .LPAREN ∨ (Parser.peek st).type = .LBRACKET ∨
        (Parser.peek st).type = .LBRACE) →
      (Parser.peek st).type ≠ .VAR →
      parseFactor (fuel + 1) st =
        (.VAR st.nodeIdCounter "?" "?" 0, ⟨st.tokens, st.pos + 1, st.nodeIdCounter + 1⟩)) := by
  refine ⟨fun _ => rfl, ?_, ?_, ?_⟩
  · intro fuel c rest hop hsym hvar hdash
    rw [tokenizeGo, hop]
    simp [hsym, hvar, hdash]
  · intro fuel st node st2 hopen hinner hclose
    rw [parseFactor, parseGo]
    simp only [hopen, if_true, hinner, hclose, if_false]
  · intro fuel st hatom hvar
    rw [parseFactor, parseGo]
    simp only [hatom, if_false, hvar, Parser.consume, Parser.generateId]

/-- C5 witness: the three recovery behaviours at concrete inputs — the
scanner skips '@'; parsing "(A∧B" (whose close bracket is missing, the
next token being EOF) returns the inner conjunction with the cursor still
at the EOF; and parseFactor on a lone IMPLIES token consumes it and
substitutes the placeholder node. -/
theorem c5_lenient_recovery_witness :
    tokenizeGo 3 ['@', 'A', 'B'] = tokenizeGo 2 ['A', 'B'] ∧
    parseFactor 73 ⟨tokenize "(A∧B", 0, 0⟩ =
      (.AND 2 (.VAR 0 "A" "A" 0) (.VAR 1 "B" "B" 0) "A ∧ B" 1,
        ⟨tokenize "(A∧B", 4, 3⟩) ∧
    parseFactor 6 ⟨[⟨.IMPLIES, "→"⟩], 0, 0⟩ =
      (.VAR 0 "?" "?" 0, ⟨[⟨.IMPLIES, "→"⟩], 1, 1⟩) :=
  ⟨c5_lenient_recovery.2.1 2 '@' ['A', 'B'] (by decide) (by decide) (by decide) (by decide),
   c5_lenient_recovery.2.2.1 72 ⟨tokenize "(A∧B", 0, 0⟩
     (.AND 2 (.VAR 0 "A" "A" 0) (.VAR 1 "B" "B" 0) "A ∧ B" 1)
     ⟨tokenize "(A∧B", 4, 3⟩ (by decide) (by decide) (by decide),
   c5_lenient_recovery.2.2.2 5 ⟨[⟨.IMPLIES, "→"⟩], 0, 0⟩ (by decide) (by decide)⟩

-- ---------------------------------------------------------------------------
-- Claim C10 (recalculateRow depends only on the input-column values)
-- ---------------------------------------------------------------------------

/-- Generic foldl congruence over the members of the traversed list. -/
theorem foldl_congr_mem {α β : Type} (l : List α) (f g : β → α → β) (b : β)
    (h : ∀ acc : β, ∀ x ∈ l, f acc x = g acc x) : l.foldl f b = l.foldl g b := by
  induction l generalizing b with
  | nil => rfl
  | cons x xs ih =>
    rw [List.foldl_cons, List.foldl_cons, h b x (List.mem_cons_self _ _)]
    exact ih _ (fun acc y hy => h acc y (List.mem_cons_of_mem _ hy))

/-- Rows agreeing on every input-column value rebuild the same evaluation
context. -/
theorem recalcContext_eq_of_input_agree (r1 r2 : TruthTableRow)
    (cols : List TableColumn)
    (h : ∀ c ∈ cols, c.isInput = true →
      r1.values.lookupKey c.expression = r2.values.lookupKey c.expression) :
    recalcContext r1 cols = recalcContext r2 cols := by
  rw [recalcContext, recalcContext]
  apply foldl_congr_mem
  intro acc c hc
  have hmem := List.mem_filter.mp hc
  rw [h c hmem.1 hmem.2]

/-- A recalculation step that resolves no node (input column or nothing
found) leaves the value map untouched. -/
theorem recalcStep_not_writes (S : List ASTNode) (ast : ASTNode) (ctx : Rec)
    (acc : Rec) (c : TableColumn)
    (h : c.isInput = true ∨
      ((S.find? (fun n => some n.id = c.astId)).orElse
        (fun _ => if c.astId = some ast.id then some ast else none)) = none) :
    recalcStep S ast ctx acc c = acc := by
  rw [recalcStep]
  rcases h with h | h
  · simp [h]
  · cases hin : c.isInput
    · simp [h]
    · simp [hin]

/-- A recalculation step that resolves a node overwrites exactly the
column's expression key with the node's evaluation. -/
theorem recalcStep_writes (S : List ASTNode) (ast : ASTNode) (ctx : Rec)
    (acc : Rec) (c : TableColumn) (node : ASTNode)
    (hin : c.isInput = false)
    (h : ((S.find? (fun n => some n.id = c.astId)).orElse
        (fun _ => if c.astId = some ast.id then some ast else none)) = some node) :
    recalcStep S ast ctx acc c = acc.set c.expression (evaluateAST node ctx) := by
  rw [recalcStep]
  simp [hin, h]

/-- Key lemma: the recalculation fold's lookup at a key is independent of
the initial map provided the initial lookups agree or some traversed
column rewrites the key. -/
theorem recalc_foldl_lookup_eq (S : List ASTNode) (ast : ASTNode) (ctx : Rec)
    (cols : List TableColumn) (k : String) :
    ∀ init1 init2 : Rec,
      (init1.lookupKey k = init2.lookupKey k ∨
        ∃ c ∈ cols, c.isInput = false ∧ c.expression = k ∧
          ((S.find? (fun n => some n.id = c.astId)).orElse
            (fun _ => if c.astId = some ast.id then some ast else none)).isSome = true) →
      (cols.foldl (recalcStep S ast ctx) init1).lookupKey k =
        (cols.foldl (recalcStep S ast ctx) init2).lookupKey k := by
  induction cols with
  | nil =>
    intro init1 init2 h
    simpa using h.resolve_right (by simp)
  | cons c cs ih =>
    intro init1 init2 h
    rw [List.foldl_cons, List.foldl_cons]
    apply ih
    cases hin : c.isInput with
    | true =>
      rw [recalcStep_not_writes S ast ctx init1 c (Or.inl hin),
          recalcStep_not_writes S ast ctx init2 c (Or.inl hin)]
      rcases h with h | ⟨c', hc', hfalse, hrest⟩
      · exact Or.inl h
      · rcases List.mem_cons.mp hc' with rfl | hmem
        · simp [hin] at hfalse
        · exact Or.inr ⟨c', hmem, hfalse, hrest⟩
    | false =>
      cases hf : ((S.find? (fun n => some n.id = c.astId)).orElse
          (fun _ => if c.astId = some ast.id then some ast else none)) with
      | none =>
        rw [recalcStep_not_writes S ast ctx init1 c (Or.inr hf),
            recalcStep_not_writes S ast ctx init2 c (Or.inr hf)]
        rcases h with h | ⟨c', hc', hin', hk', hsome⟩
        · exact Or.inl h
        · rcases List.mem_cons.mp hc' with rfl | hmem
          · rw [hf] at hsome
            simp at hsome
          · exact Or.inr ⟨c', hmem, hin', hk', hsome⟩
      | some node =>
        rw [recalcStep_writes S ast ctx init1 c node hin hf,
            recalcStep_writes S ast ctx init2 c node hin hf]
        by_cases hk : c.expression = k
        · rw [hk]
          exact Or.inl (by rw [AssocRec.lookupKey_set_self, AssocRec.lookupKey_set_self])
        · rcases h with h | ⟨c', hc', hin', hk', hsome⟩
          · exact Or.inl (by
              rw [AssocRec.lookupKey_set_ne _ _ _ _ (fun hkk => hk hkk.symm),
                AssocRec.lookupKey_set_ne _ _ _ _ (fun hkk => hk hkk.symm)]
              exact h)
          · rcases List.mem_cons.mp hc' with rfl | hmem
            · exact absurd hk' hk
            · exact Or.inr ⟨c', hmem, hin', hk', hsome⟩

/-- The value map rebuilt by recalculateRow, as an explicit fold. -/
theorem recalculateRow_values (row : TruthTableRow) (columns : List TableColumn)
    (ast : ASTNode) :
    (recalculateRow row columns ast).values =
      columns.foldl
        (recalcStep (extractSubExpressions ast []) ast (recalcContext row columns))
        row.values := by
  simp only [recalculateRow]

/-- Every non-input column that analyzeLogic builds resolves to a node in
recalculateRow's find?/orElse chain. -/
theorem finalColumnsOf_noninput_resolves (e : String) (vs : List String)
    (s : AppSettings) (c : TableColumn) (hc : c ∈ finalColumnsOf e vs s)
    (hin : c.isInput = false) :
    (((subNodesOf e).find? (fun n => some n.id = c.astId)).orElse
      (fun _ => if c.astId = some (analysisAst e).id then some (analysisAst e)
        else none)).isSome = true := by
  have hcase : c ∈ varColumnsOf vs ∨ c ∈ stepColumnsOf e s ∨ c = resultColumnOf e s := by
    rw [finalColumnsOf] at hc
    split at hc
    · rcases List.mem_append.mp hc with h1 | h2
      · rcases List.mem_append.mp h1 with ha | hb
        · exact Or.inl ha
        · exact Or.inr (Or.inl hb)
      · exact Or.inr (Or.inr (List.mem_singleton.mp h2))
    · rcases List.mem_append.mp hc with h1 | h2
      · exact Or.inl h1
      · exact Or.inr (Or.inr (List.mem_singleton.mp h2))
  rcases hcase with hvar | hstep | hres
  · rw [varColumnsOf] at hvar
    obtain ⟨v, _, hveq⟩ := List.mem_map.mp hvar
    rw [← hveq] at hin
    simp at hin
  · rw [stepColumnsOf] at hstep
    obtain ⟨n, hn, hneq⟩ := List.mem_map.mp hstep
    have hnmem : n ∈ subNodesOf e := List.mem_of_mem_filter hn
    have hastId : c.astId = some n.id := by rw [← hneq]
    cases hfs : (subNodesOf e).find? (fun m => some m.id = c.astId) with
    | none =>
      exfalso
      have hall := List.find?_eq_none.mp hfs n hnmem
      simp [hastId] at hall
    | some m => simp [Option.orElse, hfs]
  · have hastId : c.astId = some (analysisAst e).id := by
      rw [hres]
      simp [resultColumnOf]
    cases hfs : (subNodesOf e).find? (fun m => some m.id = c.astId) with
    | none => simp [Option.orElse, hastId]
    | some m => simp [Option.orElse, hfs]

/-- Claim C10: for the column set and AST that analyzeLogic built, the row
returned by recalculateRow is a function of the given row's input-column
values only — two rows agreeing on every input-column value recalculate to
rows agreeing on every column value, whatever stale derived values they
carried. -/
theorem c10_recalculate_row_input_only
    (e : String) (vs : List String) (s : AppSettings) (res : AnalysisResult)
    (hok : analyzeLogic e vs s = .ok res)
    (r1 r2 : TruthTableRow)
    (hin : ∀ c ∈ res.columns, c.isInput = true →
      r1.values.lookupKey c.expression = r2.values.lookupKey c.expression) :
    ∀ c ∈ res.columns,
      (recalculateRow r1 res.columns res.ast).values.lookupKey c.expression =
        (recalculateRow r2 res.columns res.ast).values.lookupKey c.expression := by
  have hres := analyzeLogic_ok_elim hok
  subst hres
  rw [analyzeLogicCore_columns] at hin ⊢
  rw [analyzeLogicCore_ast]
  intro c hc
  have hctx := recalcContext_eq_of_input_agree r1 r2 (finalColumnsOf e vs s) hin
  have hS : extractSubExpressions (analysisAst e) [] = subNodesOf e := rfl
  rw [recalculateRow_values, recalculateRow_values, hS, hctx]
  apply recalc_foldl_lookup_eq
  cases hcin : c.isInput with
  | true => exact Or.inl (hin c hc hcin)
  | false =>
    exact Or.inr ⟨c, hc, hcin, rfl, finalColumnsOf_noninput_resolves e vs s c hc hcin⟩

/-- Witness for C10: the analysis of "P ∧ Q" over P, Q; two rows agreeing
on the inputs (P true, Q false) but carrying different stale output values
recalculate to the same output value. -/
theorem c10_recalculate_row_input_only_witness :
    (recalculateRow ⟨"a", [("P", true), ("Q", false), ("P ∧ Q", true)], 0⟩
        (analyzeLogicOk "P ∧ Q" ["P", "Q"] DEFAULT_SETTINGS).columns
        (analyzeLogicOk "P ∧ Q" ["P", "Q"] DEFAULT_SETTINGS).ast).values.lookupKey "P ∧ Q" =
      (recalculateRow ⟨"b", [("P", true), ("Q", false)], 1⟩
        (analyzeLogicOk "P ∧ Q" ["P", "Q"] DEFAULT_SETTINGS).columns
        (analyzeLogicOk "P ∧ Q" ["P", "Q"] DEFAULT_SETTINGS).ast).values.lookupKey "P ∧ Q" :=
  c10_recalculate_row_input_only "P ∧ Q" ["P", "Q"] DEFAULT_SETTINGS
    (analyzeLogicOk "P ∧ Q" ["P", "Q"] DEFAULT_SETTINGS) rfl
    ⟨"a", [("P", true), ("Q", false), ("P ∧ Q", true)], 0⟩
    ⟨"b", [("P", true), ("Q", false)], 1⟩
    (by decide)
    ⟨"node-2", "P ∧ Q", "P ∧ Q", false, true, some 2, some [0, 1]⟩
    (by decide)

-- ---------------------------------------------------------------------------
-- Claim C2: infrastructure.  Well-formedness of parser output: node ids
-- dominate the ids of the subtrees (each node is created after its
-- children), variable values never contain a space, '¬' or '-', and every
-- composite node's expression string does contain one — so a composite
-- expression never collides with a variable name.
-- ---------------------------------------------------------------------------

/-- The marker characters: present in every composite expression (operator
separators always carry a space, negations a '¬' or '-'), absent from
every variable value the tokenizer can produce. -/
def isMark (c : Char) : Bool := c = ' ' || c = '¬' || c = '-'

/-- A string free of marker characters (variable values). -/
def cleanStr (s : String) : Bool := s.data.all (fun c => !isMark c)

/-- A string containing a marker character (composite expressions). -/
def marked (s : String) : Bool := s.data.any isMark

/-- Well-formedness of a token: VAR values are clean, NOT values marked. -/
def tokOk (t : Token) : Bool :=
  (if t.type = .VAR then cleanStr t.value else true) &&
  (if t.type = .NOT then marked t.value else true)

/-- Every node id of the tree lies below the bound. -/
def idsBelow (b : Nat) : ASTNode → Bool
  | .VAR i _ _ _ => i < b
  | .NOT i op _ _ => i < b && idsBelow b op
  | .AND i l r _ _ => i < b && idsBelow b l && idsBelow b r
  | .OR i l r _ _ => i < b && idsBelow b l && idsBelow b r
  | .XOR i l r _ _ => i < b && idsBelow b l && idsBelow b r
  | .IMPLIES i l r _ _ => i < b && idsBelow b l && idsBelow b r
  | .IFF i l r _ _ => i < b && idsBelow b l && idsBelow b r

/-- Parser-output well-formedness: variable values clean, composite
expressions marked, and each node's id strictly above its subtrees'. -/
def goodNode : ASTNode → Bool
  | .VAR _ v _ _ => cleanStr v
  | .NOT i op e _ => marked e && idsBelow i op && goodNode op
  | .AND i l r e _ => marked e && idsBelow i l && idsBelow i r && goodNode l && goodNode r
  | .OR i l r e _ => marked e && idsBelow i l && idsBelow i r && goodNode l && goodNode r
  | .XOR i l r e _ => marked e && idsBelow i l && idsBelow i r && goodNode l && goodNode r
  | .IMPLIES i l r e _ => marked e && idsBelow i l && idsBelow i r && goodNode l && goodNode r
  | .IFF i l r e _ => marked e && idsBelow i l && idsBelow i r && goodNode l && goodNode r

/-- All nodes of a tree (the tree itself included). -/
def nodesOf : ASTNode → List ASTNode
  | n@(.VAR ..) => [n]
  | n@(.NOT _ op _ _) => n :: nodesOf op
  | n@(.AND _ l r _ _) => n :: (nodesOf l ++ nodesOf r)
  | n@(.OR _ l r _ _) => n :: (nodesOf l ++ nodesOf r)
  | n@(.XOR _ l r _ _) => n :: (nodesOf l ++ nodesOf r)
  | n@(.IMPLIES _ l r _ _) => n :: (nodesOf l ++ nodesOf r)
  | n@(.IFF _ l r _ _) => n :: (nodesOf l ++ nodesOf r)

/-- The variable names the evaluator can look up in a context (the literal
constants "0" and "1" are resolved without a lookup and are excluded). -/
def varsOf : ASTNode → List String
  | .VAR _ v _ _ => if v = "1" || v = "0" then [] else [v]
  | .NOT _ op _ _ => varsOf op
  | .AND _ l r _ _ => varsOf l ++ varsOf r
  | .OR _ l r _ _ => varsOf l ++ varsOf r
  | .XOR _ l r _ _ => varsOf l ++ varsOf r
  | .IMPLIES _ l r _ _ => varsOf l ++ varsOf r
  | .IFF _ l r _ _ => varsOf l ++ varsOf r

/-- The while-loop modes, which inspect the folded left operand. -/
def PMode.usesLeft : PMode → Bool
  | .iffLoop | .impLoop | .xorLoop | .orLoop | .andLoop => true
  | _ => false

theorem idsBelow_mono {b b2 : Nat} (h : b ≤ b2) :
    ∀ n, idsBelow b n = true → idsBelow b2 n = true := by
  intro n
  induction n with
  | VAR i v e d => simp only [idsBelow, decide_eq_true_eq]; omega
  | NOT i op e d ih =>
    simp only [idsBelow, Bool.and_eq_true, decide_eq_true_eq]
    exact fun hh => ⟨by omega, ih hh.2⟩
  | AND i l r e d ihl ihr =>
    simp only [idsBelow, Bool.and_eq_true, decide_eq_true_eq]
    exact fun hh => ⟨⟨by omega, ihl hh.1.2⟩, ihr hh.2⟩
  | OR i l r e d ihl ihr =>
    simp only [idsBelow, Bool.and_eq_true, decide_eq_true_eq]
    exact fun hh => ⟨⟨by omega, ihl hh.1.2⟩, ihr hh.2⟩
  | XOR i l r e d ihl ihr =>
    simp only [idsBelow, Bool.and_eq_true, decide_eq_true_eq]
    exact fun hh => ⟨⟨by omega, ihl hh.1.2⟩, ihr hh.2⟩
  | IMPLIES i l r e d ihl ihr =>
    simp only [idsBelow, Bool.and_eq_true, decide_eq_true_eq]
    exact fun hh => ⟨⟨by omega, ihl hh.1.2⟩, ihr hh.2⟩
  | IFF i l r e d ihl ihr =>
    simp only [idsBelow, Bool.and_eq_true, decide_eq_true_eq]
    exact fun hh => ⟨⟨by omega, ihl hh.1.2⟩, ihr hh.2⟩

theorem nodesOf_id_lt {b : Nat} :
    ∀ n, idsBelow b n = true → ∀ m ∈ nodesOf n, m.id < b := by
  intro n
  induction n with
  | VAR i v e d =>
    simp only [idsBelow, nodesOf, decide_eq_true_eq, List.mem_singleton]
    rintro h m rfl
    exact h
  | NOT i op e d ih =>
    simp only [idsBelow, nodesOf, Bool.and_eq_true, decide_eq_true_eq, List.mem_cons]
    rintro ⟨h1, h2⟩ m (rfl | hm)
    · exact h1
    · exact ih h2 m hm
  | AND i l r e d ihl ihr =>
    simp only [idsBelow, nodesOf, Bool.and_eq_true, decide_eq_true_eq, List.mem_cons,
      List.mem_append]
    rintro ⟨⟨h1, h2⟩, h3⟩ m (rfl | hm | hm)
    · exact h1
    · exact ihl h2 m hm
    · exact ihr h3 m hm
  | OR i l r e d ihl ihr =>
    simp only [idsBelow, nodesOf, Bool.and_eq_true, decide_eq_true_eq, List.mem_cons,
      List.mem_append]
    rintro ⟨⟨h1, h2⟩, h3⟩ m (rfl | hm | hm)
    · exact h1
    · exact ihl h2 m hm
    · exact ihr h3 m hm
  | XOR i l r e d ihl ihr =>
    simp only [idsBelow, nodesOf, Bool.and_eq_true, decide_eq_true_eq, List.mem_cons,
      List.mem_append]
    rintro ⟨⟨h1, h2⟩, h3⟩ m (rfl | hm | hm)
    · exact h1
    · exact ihl h2 m hm
    · exact ihr h3 m hm
  | IMPLIES i l r e d ihl ihr =>
    simp only [idsBelow, nodesOf, Bool.and_eq_true, decide_eq_true_eq, List.mem_cons,
      List.mem_append]
    rintro ⟨⟨h1, h2⟩, h3⟩ m (rfl | hm | hm)
    · exact h1
    · exact ihl h2 m hm
    · exact ihr h3 m hm
  | IFF i l r e d ihl ihr =>
    simp only [idsBelow, nodesOf, Bool.and_eq_true, decide_eq_true_eq, List.mem_cons,
      List.mem_append]
    rintro ⟨⟨h1, h2⟩, h3⟩ m (rfl | hm | hm)
    · exact h1
    · exact ihl h2 m hm
    · exact ihr h3 m hm

theorem nodesOf_ne_id_lt {n : ASTNode} (h : goodNode n = true) :
    ∀ m ∈ nodesOf n, m ≠ n → m.id < n.id := by
  cases n with
  | VAR i v e d =>
    simp only [nodesOf, List.mem_singleton]
    rintro m rfl hne
    exact absurd rfl hne
  | NOT i op e d =>
    simp only [goodNode, Bool.and_eq_true] at h
    simp only [nodesOf, List.mem_cons]
    rintro m (rfl | hm) hne
    · exact absurd rfl hne
    · exact nodesOf_id_lt op h.1.2 m hm
  | AND i l r e d =>
    simp only [goodNode, Bool.and_eq_true] at h
    simp only [nodesOf, List.mem_cons, List.mem_append]
    rintro m (rfl | hm | hm) hne
    · exact absurd rfl hne
    · exact nodesOf_id_lt l h.1.1.1.2 m hm
    · exact nodesOf_id_lt r h.1.1.2 m hm
  | OR i l r e d =>
    simp only [goodNode, Bool.and_eq_true] at h
    simp only [nodesOf, List.mem_cons, List.mem_append]
    rintro m (rfl | hm | hm) hne
    · exact absurd rfl hne
    · exact nodesOf_id_lt l h.1.1.1.2 m hm
    · exact nodesOf_id_lt r h.1.1.2 m hm
  | XOR i l r e d =>
    simp only [goodNode, Bool.and_eq_true] at h
    simp only [nodesOf, List.mem_cons, List.mem_append]
    rintro m (rfl | hm | hm) hne
    · exact absurd rfl hne
    · exact nodesOf_id_lt l h.1.1.1.2 m hm
    · exact nodesOf_id_lt r h.1.1.2 m hm
  | IMPLIES i l r e d =>
    simp only [goodNode, Bool.and_eq_true] at h
    simp only [nodesOf, List.mem_cons, List.mem_append]
    rintro m (rfl | hm | hm) hne
    · exact absurd rfl hne
    · exact nodesOf_id_lt l h.1.1.1.2 m hm
    · exact nodesOf_id_lt r h.1.1.2 m hm
  | IFF i l r e d =>
    simp only [goodNode, Bool.and_eq_true] at h
    simp only [nodesOf, List.mem_cons, List.mem_append]
    rintro m (rfl | hm | hm) hne
    · exact absurd rfl hne
    · exact nodesOf_id_lt l h.1.1.1.2 m hm
    · exact nodesOf_id_lt r h.1.1.2 m hm

theorem goodNode_nonvar_marked {m : ASTNode} (h : goodNode m = true)
    (hv : m.nodeType ≠ .VAR) : marked m.expression = true := by
  cases m with
  | VAR i v e d => exact absurd rfl hv
  | NOT i op e d => simp only [goodNode, Bool.and_eq_true] at h; exact h.1.1
  | AND i l r e d => simp only [goodNode, Bool.and_eq_true] at h; exact h.1.1.1.1
  | OR i l r e d => simp only [goodNode, Bool.and_eq_true] at h; exact h.1.1.1.1
  | XOR i l r e d => simp only [goodNode, Bool.and_eq_true] at h; exact h.1.1.1.1
  | IMPLIES i l r e d => simp only [goodNode, Bool.and_eq_true] at h; exact h.1.1.1.1
  | IFF i l r e d => simp only [goodNode, Bool.and_eq_true] at h; exact h.1.1.1.1

theorem varsOf_clean {n : ASTNode} (h : goodNode n = true) :
    ∀ v ∈ varsOf n, cleanStr v = true := by
  induction n with
  | VAR i v e d =>
    intro w hw
    rw [varsOf] at hw
    split at hw
    · simp at hw
    · rw [List.mem_singleton] at hw
      subst hw
      exact h
  | NOT i op e d ih =>
    simp only [goodNode, Bool.and_eq_true] at h
    exact fun w hw => ih h.2 w hw
  | AND i l r e d ihl ihr =>
    simp only [goodNode, Bool.and_eq_true] at h
    intro w hw
    rcases List.mem_append.mp hw with hm | hm
    · exact ihl h.1.2 w hm
    · exact ihr h.2 w hm
  | OR i l r e d ihl ihr =>
    simp only [goodNode, Bool.and_eq_true] at h
    intro w hw
    rcases List.mem_append.mp hw with hm | hm
    · exact ihl h.1.2 w hm
    · exact ihr h.2 w hm
  | XOR i l r e d ihl ihr =>
    simp only [goodNode, Bool.and_eq_true] at h
    intro w hw
    rcases List.mem_append.mp hw with hm | hm
    · exact ihl h.1.2 w hm
    · exact ihr h.2 w hm
  | IMPLIES i l r e d ihl ihr =>
    simp only [goodNode, Bool.and_eq_true] at h
    intro w hw
    rcases List.mem_append.mp hw with hm | hm
    · exact ihl h.1.2 w hm
    · exact ihr h.2 w hm
  | IFF i l r e d ihl ihr =>
    simp only [goodNode, Bool.and_eq_true] at h
    intro w hw
    rcases List.mem_append.mp hw with hm | hm
    · exact ihl h.1.2 w hm
    · exact ihr h.2 w hm

theorem marked_ne_clean {s k : String} (hm : marked s = true)
    (hk : cleanStr k = true) : s ≠ k := by
  intro he
  subst he
  obtain ⟨c, hc, hcm⟩ := List.any_eq_true.mp hm
  have hall := List.all_eq_true.mp hk c hc
  rw [hcm] at hall
  simp at hall

theorem mem_pushUniqueByExpr {l : List ASTNode} {n m : ASTNode}
    (h : m ∈ pushUniqueByExpr l n) : m ∈ l ∨ m = n := by
  rw [pushUniqueByExpr] at h
  split at h
  · exact Or.inl h
  · rcases List.mem_append.mp h with hm | hm
    · exact Or.inl hm
    · exact Or.inr (List.mem_singleton.mp hm)

theorem mem_extractSubExpressions :
    ∀ (n : ASTNode) (acc : List ASTNode) (m : ASTNode),
      m ∈ extractSubExpressions n acc → m ∈ acc ∨ m ∈ nodesOf n := by
  intro n
  induction n with
  | VAR i v e d =>
    intro acc m hm
    rcases mem_pushUniqueByExpr hm with h | h
    · exact Or.inl h
    · exact Or.inr (by rw [h]; simp [nodesOf])
  | NOT i op e d ih =>
    intro acc m hm
    rcases mem_pushUniqueByExpr hm with h | h
    · rcases ih acc m h with h2 | h2
      · exact Or.inl h2
      · exact Or.inr (by simp [nodesOf]; exact Or.inr h2)
    · exact Or.inr (by rw [h]; simp [nodesOf])
  | AND i l r e d ihl ihr =>
    intro acc m hm
    rcases mem_pushUniqueByExpr hm with h | h
    · rcases ihr _ m h with h2 | h2
      · rcases ihl acc m h2 with h3 | h3
        · exact Or.inl h3
        · exact Or.inr (by simp [nodesOf]; exact Or.inr (Or.inl h3))
      · exact Or.inr (by simp [nodesOf]; exact Or.inr (Or.inr h2))
    · exact Or.inr (by rw [h]; simp [nodesOf])
  | OR i l r e d ihl ihr =>
    intro acc m hm
    rcases mem_pushUniqueByExpr hm with h | h
    · rcases ihr _ m h with h2 | h2
      · rcases ihl acc m h2 with h3 | h3
        · exact Or.inl h3
        · exact Or.inr (by simp [nodesOf]; exact Or.inr (Or.inl h3))
      · exact Or.inr (by simp [nodesOf]; exact Or.inr (Or.inr h2))
    · exact Or.inr (by rw [h]; simp [nodesOf])
  | XOR i l r e d ihl ihr =>
    intro acc m hm
    rcases mem_pushUniqueByExpr hm with h | h
    · rcases ihr _ m h with h2 | h2
      · rcases ihl acc m h2 with h3 | h3
        · exact Or.inl h3
        · exact Or.inr (by simp [nodesOf]; exact Or.inr (Or.inl h3))
      · exact Or.inr (by simp [nodesOf]; exact Or.inr (Or.inr h2))
    · exact Or.inr (by rw [h]; simp [nodesOf])
  | IMPLIES i l r e d ihl ihr =>
    intro acc m hm
    rcases mem_pushUniqueByExpr hm with h | h
    · rcases ihr _ m h with h2 | h2
      · rcases ihl acc m h2 with h3 | h3
        · exact Or.inl h3
        · exact Or.inr (by simp [nodesOf]; exact Or.inr (Or.inl h3))
      · exact Or.inr (by simp [nodesOf]; exact Or.inr (Or.inr h2))
    · exact Or.inr (by rw [h]; simp [nodesOf])
  | IFF i l r e d ihl ihr =>
    intro acc m hm
    rcases mem_pushUniqueByExpr hm with h | h
    · rcases ihr _ m h with h2 | h2
      · rcases ihl acc m h2 with h3 | h3
        · exact Or.inl h3
        · exact Or.inr (by simp [nodesOf]; exact Or.inr (Or.inl h3))
      · exact Or.inr (by simp [nodesOf]; exact Or.inr (Or.inr h2))
    · exact Or.inr (by rw [h]; simp [nodesOf])

theorem evaluateAST_congr :
    ∀ (n : ASTNode) (c1 c2 : Rec),
      (∀ v ∈ varsOf n, c1.lookupKey v = c2.lookupKey v) →
      evaluateAST n c1 = evaluateAST n c2 := by
  intro n
  induction n with
  | VAR i v e d =>
    intro c1 c2 h
    rw [evaluateAST, evaluateAST]
    by_cases h1 : v = "1"
    · simp [h1]
    · by_cases h0 : v = "0"
      · simp [h0]
      · have hv : v ∈ varsOf (.VAR i v e d) := by
          rw [varsOf, if_neg (by simp [h1, h0])]
          exact List.mem_singleton.mpr rfl
        simp [h1, h0, h v hv]
  | NOT i op e d ih =>
    intro c1 c2 h
    rw [evaluateAST, evaluateAST, ih c1 c2 (fun v hv => h v hv)]
  | AND i l r e d ihl ihr =>
    intro c1 c2 h
    rw [evaluateAST, evaluateAST,
      ihl c1 c2 (fun v hv => h v (List.mem_append.mpr (Or.inl hv))),
      ihr c1 c2 (fun v hv => h v (List.mem_append.mpr (Or.inr hv)))]
  | OR i l r e d ihl ihr =>
    intro c1 c2 h
    rw [evaluateAST, evaluateAST,
      ihl c1 c2 (fun v hv => h v (List.mem_append.mpr (Or.inl hv))),
      ihr c1 c2 (fun v hv => h v (List.mem_append.mpr (Or.inr hv)))]
  | XOR i l r e d ihl ihr =>
    intro c1 c2 h
    rw [evaluateAST, evaluateAST,
      ihl c1 c2 (fun v hv => h v (List.mem_append.mpr (Or.inl hv))),
      ihr c1 c2 (fun v hv => h v (List.mem_append.mpr (Or.inr hv)))]
  | IMPLIES i l r e d ihl ihr =>
    intro c1 c2 h
    rw [evaluateAST, evaluateAST,
      ihl c1 c2 (fun v hv => h v (List.mem_append.mpr (Or.inl hv))),
      ihr c1 c2 (fun v hv => h v (List.mem_append.mpr (Or.inr hv)))]
  | IFF i l r e d ihl ihr =>
    intro c1 c2 h
    rw [evaluateAST, evaluateAST,
      ihl c1 c2 (fun v hv => h v (List.mem_append.mpr (Or.inl hv))),
      ihr c1 c2 (fun v hv => h v (List.mem_append.mpr (Or.inr hv)))]

theorem marked_sep (a s b : String) (hs : marked s = true) :
    marked (a ++ s ++ b) = true := by
  simp only [marked, String.data_append, List.any_append, Bool.or_eq_true]
  exact Or.inl (Or.inr (by simpa [marked] using hs))

theorem marked_append_left (a b : String) (ha : marked a = true) :
    marked (a ++ b) = true := by
  simp only [marked, String.data_append, List.any_append, Bool.or_eq_true]
  exact Or.inl (by simpa [marked] using ha)

/-- The fold of record assignments, characterized: the last write to a key
wins, an unwritten key keeps its initial binding. -/
theorem AssocRec.lookupKey_foldl_set {κ ν α : Type} [DecidableEq κ]
    (l : List α) (key : α → κ) (val : α → ν) (init : AssocRec κ ν) (k : κ) :
    (l.foldl (fun acc x => acc.set (key x) (val x)) init).lookupKey k =
      match l.reverse.find? (fun x => key x = k) with
      | some x => some (val x)
      | none => init.lookupKey k := by
  induction l using List.reverseRecOn generalizing init with
  | nil => simp
  | append_singleton xs x ih =>
    rw [List.foldl_append, List.foldl_cons, List.foldl_nil, List.reverse_append]
    simp only [List.reverse_singleton, List.singleton_append, List.find?_cons]
    by_cases hx : key x = k
    · have hd : decide (key x = k) = true := by simp [hx]
      rw [hx] at hd ⊢
      rw [hd]
      exact AssocRec.lookupKey_set_self _ _ _
    · have hd : decide (key x = k) = false := by simp [hx]
      rw [hd]
      rw [AssocRec.lookupKey_set_ne _ _ _ _ (fun hh => hx hh.symm)]
      exact ih init

/-- A peeked token that is not the out-of-range EOF default belongs to the
token array. -/
theorem peek_mem_of_ne_eof (st : ParserState) (h : (Parser.peek st).type ≠ .EOF) :
    Parser.peek st ∈ st.tokens := by
  rw [Parser.peek] at h ⊢
  by_cases hpos : st.pos < st.tokens.length
  · rw [List.getD_eq_getElem st.tokens _ hpos]
    exact List.getElem_mem _
  · rw [List.getD_eq_default st.tokens _ (by omega)] at h
    exact absurd rfl h

theorem opKeys_tokOk : ∀ p ∈ opKeysSorted,
    tokOk ⟨symToType p.2, String.singleton p.2⟩ = true := by decide

theorem symbol_tokOk (c : Char) (h : isSymbolOrBracket c = true) :
    tokOk ⟨charTokType c, String.singleton c⟩ = true := by
  simp only [isSymbolOrBracket, Bool.or_eq_true, decide_eq_true_eq] at h
  rcases h with ((((((((((h|h)|h)|h)|h)|h)|h)|h)|h)|h)|h)|h <;> subst h <;> decide

theorem upper_clean (c : Char) (h : (isUpperAlpha c || c = '1' || c = '0') = true) :
    cleanStr (String.singleton c) = true := by
  by_cases hm : isMark c = true
  · exfalso
    simp only [isMark, Bool.or_eq_true, decide_eq_true_eq] at hm
    rcases hm with (h1|h1)|h1 <;> subst h1 <;> exact absurd h (by decide)
  · cases hb : isMark c with
    | false =>
      have hdata : (String.singleton c).data = [c] := rfl
      simp [cleanStr, hdata, hb]
    | true => exact absurd hb hm

theorem tokenizeGo_tokOk :
    ∀ (fuel : Nat) (cs : List Char) (t : Token), t ∈ tokenizeGo fuel cs → tokOk t = true := by
  intro fuel
  induction fuel with
  | zero =>
    intro cs t ht
    simp [tokenizeGo] at ht
  | succ n ih =>
    intro cs t ht
    match cs with
    | [] => simp [tokenizeGo] at ht
    | c :: rest =>
      rw [tokenizeGo] at ht
      cases hfm : findOpMatch (c :: rest) with
      | some ks =>
        rw [hfm] at ht
        rcases List.mem_cons.mp ht with rfl | hmem
        · exact opKeys_tokOk ks (List.mem_of_find?_eq_some hfm)
        · exact ih _ _ hmem
      | none =>
        rw [hfm] at ht
        by_cases hsb : isSymbolOrBracket c = true
        · rw [if_pos hsb] at ht
          rcases List.mem_cons.mp ht with rfl | hmem
          · exact symbol_tokOk c hsb
          · exact ih _ _ hmem
        · rw [if_neg hsb] at ht
          by_cases hup : (isUpperAlpha c || c = '1' || c = '0') = true
          · rw [if_pos hup] at ht
            rcases List.mem_cons.mp ht with rfl | hmem
            · simp [tokOk, upper_clean c hup]
            · exact ih _ _ hmem
          · rw [if_neg hup] at ht
            by_cases hdash : c = '-'
            · rw [if_pos hdash] at ht
              rcases List.mem_cons.mp ht with rfl | hmem
              · decide
              · exact ih _ _ hmem
            · rw [if_neg hdash] at ht
              exact ih _ _ ht

theorem tokenize_tokOk (s : String) : ∀ t ∈ tokenize s, tokOk t = true := by
  intro t ht
  rw [tokenize] at ht
  rcases List.mem_append.mp ht with h | h
  · exact tokenizeGo_tokOk _ _ _ h
  · rw [List.mem_singleton] at h
    subst h
    decide

theorem idsBelow_setExpression (b : Nat) (n : ASTNode) (e : String) :
    idsBelow b (n.setExpression e) = idsBelow b n := by
  cases n <;> rfl

theorem goodNode_setExpression_wrap (n : ASTNode) (a b : String)
    (h : goodNode n = true) :
    goodNode (n.setExpression (a ++ n.expression ++ b)) = true := by
  cases n with
  | VAR i v e d => exact h
  | NOT i op e d =>
    simp only [ASTNode.setExpression, ASTNode.expression, goodNode,
      Bool.and_eq_true] at h ⊢
    exact ⟨⟨marked_sep a e b h.1.1, h.1.2⟩, h.2⟩
  | AND i l r e d =>
    simp only [ASTNode.setExpression, ASTNode.expression, goodNode,
      Bool.and_eq_true] at h ⊢
    exact ⟨⟨⟨⟨marked_sep a e b h.1.1.1.1, h.1.1.1.2⟩, h.1.1.2⟩, h.1.2⟩, h.2⟩
  | OR i l r e d =>
    simp only [ASTNode.setExpression, ASTNode.expression, goodNode,
      Bool.and_eq_true] at h ⊢
    exact ⟨⟨⟨⟨marked_sep a e b h.1.1.1.1, h.1.1.1.2⟩, h.1.1.2⟩, h.1.2⟩, h.2⟩
  | XOR i l r e d =>
    simp only [ASTNode.setExpression, ASTNode.expression, goodNode,
      Bool.and_eq_true] at h ⊢
    exact ⟨⟨⟨⟨marked_sep a e b h.1.1.1.1, h.1.1.1.2⟩, h.1.1.2⟩, h.1.2⟩, h.2⟩
  | IMPLIES i l r e d =>
    simp only [ASTNode.setExpression, ASTNode.expression, goodNode,
      Bool.and_eq_true] at h ⊢
    exact ⟨⟨⟨⟨marked_sep a e b h.1.1.1.1, h.1.1.1.2⟩, h.1.1.2⟩, h.1.2⟩, h.2⟩
  | IFF i l r e d =>
    simp only [ASTNode.setExpression, ASTNode.expression, goodNode,
      Bool.and_eq_true] at h ⊢
    exact ⟨⟨⟨⟨marked_sep a e b h.1.1.1.1, h.1.1.1.2⟩, h.1.1.2⟩, h.1.2⟩, h.2⟩

/-- The parse invariant relating a run's output to its starting state:
tokens untouched, id counter monotone, all ids below the final counter,
and the returned node well-formed. -/
def PInv (st : ParserState) (out : ASTNode × ParserState) : Prop :=
  out.2.tokens = st.tokens ∧ st.nodeIdCounter ≤ out.2.nodeIdCounter ∧
  idsBelow out.2.nodeIdCounter out.1 = true ∧ goodNode out.1 = true

/-- The parser invariant, by induction on the fuel: every parseGo run
preserves the token array, only increments the id counter, keeps every
produced id below the final counter, and returns a well-formed node
(variable values clean, composite expressions marked, each node id above
its whole subtree: each node is created after its children). -/
theorem parseGo_inv : ∀ (fuel : Nat) (m : PMode) (left : ASTNode) (st : ParserState),
    (∀ t ∈ st.tokens, tokOk t = true) →
    (m.usesLeft = true → idsBelow st.nodeIdCounter left = true ∧ goodNode left = true) →
    PInv st (parseGo fuel m left st) := by
  intro fuel
  induction fuel with
  | zero =>
    intro m left st htok hleft
    cases m
    case iffLoop => exact ⟨rfl, Nat.le_refl _, (hleft rfl).1, (hleft rfl).2⟩
    case impLoop => exact ⟨rfl, Nat.le_refl _, (hleft rfl).1, (hleft rfl).2⟩
    case xorLoop => exact ⟨rfl, Nat.le_refl _, (hleft rfl).1, (hleft rfl).2⟩
    case orLoop => exact ⟨rfl, Nat.le_refl _, (hleft rfl).1, (hleft rfl).2⟩
    case andLoop => exact ⟨rfl, Nat.le_refl _, (hleft rfl).1, (hleft rfl).2⟩
    all_goals
      refine ⟨rfl, Nat.le_succ _, ?_, ?_⟩
      · exact decide_eq_true (Nat.lt_succ_self _)
      · exact (by decide : cleanStr "?" = true)
  | succ fuel ih =>
    intro m left st htok hleft
    cases m
    case iff =>
      have i1 := ih .imp left st htok (fun hcontra => absurd hcontra (by decide))
      rcases hp1 : parseGo fuel .imp left st with ⟨l, st1⟩
      rw [hp1] at i1
      have htok1 : ∀ t ∈ st1.tokens, tokOk t = true := by
        rw [show st1.tokens = st.tokens from i1.1]
        exact htok
      have i2 := ih .iffLoop l st1 htok1 (fun _ => ⟨i1.2.2.1, i1.2.2.2⟩)
      rcases hp2 : parseGo fuel .iffLoop l st1 with ⟨n2, st2⟩
      rw [hp2] at i2
      simp only [parseGo, hp1, hp2]
      exact ⟨i2.1.trans i1.1, le_trans i1.2.1 i2.2.1, i2.2.2.1, i2.2.2.2⟩
    case iffLoop =>
      simp only [parseGo, Parser.consume, Parser.generateId]
      by_cases hpk : (Parser.peek st).type = .IFF
      · rw [if_pos hpk]
        have i1 := ih .imp left ⟨st.tokens, st.pos + 1, st.nodeIdCounter⟩ htok
          (fun hcontra => absurd hcontra (by decide))
        rcases hp1 : parseGo fuel .imp left ⟨st.tokens, st.pos + 1, st.nodeIdCounter⟩
          with ⟨right, st2⟩
        rw [hp1] at i1
        simp only [hp1]
        have hL := hleft rfl
        have hm1 : st.nodeIdCounter ≤ st2.nodeIdCounter := i1.2.1
        have hidl : idsBelow st2.nodeIdCounter left = true :=
          idsBelow_mono hm1 left hL.1
        have hnodeids : idsBelow (st2.nodeIdCounter + 1)
            (.IFF st2.nodeIdCounter left right
              (left.expression ++ " ↔ " ++ right.expression)
              (max left.depth right.depth + 1)) = true := by
          simp only [idsBelow, Bool.and_eq_true, decide_eq_true_eq]
          exact ⟨⟨Nat.lt_succ_self _, idsBelow_mono (Nat.le_succ _) left hidl⟩,
            idsBelow_mono (Nat.le_succ _) right i1.2.2.1⟩
        have hnodegood : goodNode
            (.IFF st2.nodeIdCounter left right
              (left.expression ++ " ↔ " ++ right.expression)
              (max left.depth right.depth + 1)) = true := by
          simp only [goodNode, Bool.and_eq_true]
          exact ⟨⟨⟨⟨marked_sep left.expression " ↔ " right.expression (by decide),
            hidl⟩, i1.2.2.1⟩, hL.2⟩, i1.2.2.2⟩
        have htok2 : ∀ t ∈ st2.tokens, tokOk t = true := by
          rw [show st2.tokens = st.tokens from i1.1]
          exact htok
        have i2 := ih .iffLoop
          (.IFF st2.nodeIdCounter left right
            (left.expression ++ " ↔ " ++ right.expression)
            (max left.depth right.depth + 1))
          ⟨st2.tokens, st2.pos, st2.nodeIdCounter + 1⟩ htok2
          (fun _ => ⟨hnodeids, hnodegood⟩)
        rcases hp2 : parseGo fuel .iffLoop
            (.IFF st2.nodeIdCounter left right
              (left.expression ++ " ↔ " ++ right.expression)
              (max left.depth right.depth + 1))
            ⟨st2.tokens, st2.pos, st2.nodeIdCounter + 1⟩ with ⟨n3, st3⟩
        rw [hp2] at i2
        have hm2 : st2.nodeIdCounter + 1 ≤ st3.nodeIdCounter := i2.2.1
        exact ⟨i2.1.trans i1.1, (by omega : st.nodeIdCounter ≤ st3.nodeIdCounter),
          i2.2.2.1, i2.2.2.2⟩
      · rw [if_neg hpk]
        exact ⟨rfl, Nat.le_refl _, (hleft rfl).1, (hleft rfl).2⟩
    case imp =>
      have i1 := ih .xor left st htok (fun hcontra => absurd hcontra (by decide))
      rcases hp1 : parseGo fuel .xor left st with ⟨l, st1⟩
      rw [hp1] at i1
      have htok1 : ∀ t ∈ st1.tokens, tokOk t = true := by
        rw [show st1.tokens = st.tokens from i1.1]
        exact htok
      have i2 := ih .impLoop l st1 htok1 (fun _ => ⟨i1.2.2.1, i1.2.2.2⟩)
      rcases hp2 : parseGo fuel .impLoop l st1 with ⟨n2, st2⟩
      rw [hp2] at i2
      simp only [parseGo, hp1, hp2]
      exact ⟨i2.1.trans i1.1, le_trans i1.2.1 i2.2.1, i2.2.2.1, i2.2.2.2⟩
    case impLoop =>
      simp only [parseGo, Parser.consume, Parser.generateId]
      by_cases hpk : (Parser.peek st).type = .IMPLIES
      · rw [if_pos hpk]
        have i1 := ih .xor left ⟨st.tokens, st.pos + 1, st.nodeIdCounter⟩ htok
          (fun hcontra => absurd hcontra (by decide))
        rcases hp1 : parseGo fuel .xor left ⟨st.tokens, st.pos + 1, st.nodeIdCounter⟩
          with ⟨right, st2⟩
        rw [hp1] at i1
        simp only [hp1]
        have hL := hleft rfl
        have hm1 : st.nodeIdCounter ≤ st2.nodeIdCounter := i1.2.1
        have hidl : idsBelow st2.nodeIdCounter left = true :=
          idsBelow_mono hm1 left hL.1
        have hnodeids : idsBelow (st2.nodeIdCounter + 1)
            (.IMPLIES st2.nodeIdCounter left right
              (left.expression ++ " → " ++ right.expression)
              (max left.depth right.depth + 1)) = true := by
          simp only [idsBelow, Bool.and_eq_true, decide_eq_true_eq]
          exact ⟨⟨Nat.lt_succ_self _, idsBelow_mono (Nat.le_succ _) left hidl⟩,
            idsBelow_mono (Nat.le_succ _) right i1.2.2.1⟩
        have hnodegood : goodNode
            (.IMPLIES st2.nodeIdCounter left right
              (left.expression ++ " → " ++ right.expression)
              (max left.depth right.depth + 1)) = true := by
          simp only [goodNode, Bool.and_eq_true]
          exact ⟨⟨⟨⟨marked_sep left.expression " → " right.expression (by decide),
            hidl⟩, i1.2.2.1⟩, hL.2⟩, i1.2.2.2⟩
        have htok2 : ∀ t ∈ st2.tokens, tokOk t = true := by
          rw [show st2.tokens = st.tokens from i1.1]
          exact htok
        have i2 := ih .impLoop
          (.IMPLIES st2.nodeIdCounter left right
            (left.expression ++ " → " ++ right.expression)
            (max left.depth right.depth + 1))
          ⟨st2.tokens, st2.pos, st2.nodeIdCounter + 1⟩ htok2
          (fun _ => ⟨hnodeids, hnodegood⟩)
        rcases hp2 : parseGo fuel .impLoop
            (.IMPLIES st2.nodeIdCounter left right
              (left.expression ++ " → " ++ right.expression)
              (max left.depth right.depth + 1))
            ⟨st2.tokens, st2.pos, st2.nodeIdCounter + 1⟩ with ⟨n3, st3⟩
        rw [hp2] at i2
        have hm2 : st2.nodeIdCounter + 1 ≤ st3.nodeIdCounter := i2.2.1
        exact ⟨i2.1.trans i1.1, (by omega : st.nodeIdCounter ≤ st3.nodeIdCounter),
          i2.2.2.1, i2.2.2.2⟩
      · rw [if_neg hpk]
        exact ⟨rfl, Nat.le_refl _, (hleft rfl).1, (hleft rfl).2⟩
    case xor =>
      have i1 := ih .or left st htok (fun hcontra => absurd hcontra (by decide))
      rcases hp1 : parseGo fuel .or left st with ⟨l, st1⟩
      rw [hp1] at i1
      have htok1 : ∀ t ∈ st1.tokens, tokOk t = true := by
        rw [show st1.tokens = st.tokens from i1.1]
        exact htok
      have i2 := ih .xorLoop l st1 htok1 (fun _ => ⟨i1.2.2.1, i1.2.2.2⟩)
      rcases hp2 : parseGo fuel .xorLoop l st1 with ⟨n2, st2⟩
      rw [hp2] at i2
      simp only [parseGo, hp1, hp2]
      exact ⟨i2.1.trans i1.1, le_trans i1.2.1 i2.2.1, i2.2.2.1, i2.2.2.2⟩
    case xorLoop =>
      simp only [parseGo, Parser.consume, Parser.generateId]
      by_cases hpk : (Parser.peek st).type = .XOR
      · rw [if_pos hpk]
        have i1 := ih .or left ⟨st.tokens, st.pos + 1, st.nodeIdCounter⟩ htok
          (fun hcontra => absurd hcontra (by decide))
        rcases hp1 : parseGo fuel .or left ⟨st.tokens, st.pos + 1, st.nodeIdCounter⟩
          with ⟨right, st2⟩
        rw [hp1] at i1
        simp only [hp1]
        have hL := hleft rfl
        have hm1 : st.nodeIdCounter ≤ st2.nodeIdCounter := i1.2.1
        have hidl : idsBelow st2.nodeIdCounter left = true :=
          idsBelow_mono hm1 left hL.1
        have hnodeids : idsBelow (st2.nodeIdCounter + 1)
            (.XOR st2.nodeIdCounter left right
              (left.expression ++ " ⊕ " ++ right.expression)
              (max left.depth right.depth + 1)) = true := by
          simp only [idsBelow, Bool.and_eq_true, decide_eq_true_eq]
          exact ⟨⟨Nat.lt_succ_self _, idsBelow_mono (Nat.le_succ _) left hidl⟩,
            idsBelow_mono (Nat.le_succ _) right i1.2.2.1⟩
        have hnodegood : goodNode
            (.XOR st2.nodeIdCounter left right
              (left.expression ++ " ⊕ " ++ right.expression)
              (max left.depth right.depth + 1)) = true := by
          simp only [goodNode, Bool.and_eq_true]
          exact ⟨⟨⟨⟨marked_sep left.expression " ⊕ " right.expression (by decide),
            hidl⟩, i1.2.2.1⟩, hL.2⟩, i1.2.2.2⟩
        have htok2 : ∀ t ∈ st2.tokens, tokOk t = true := by
          rw [show st2.tokens = st.tokens from i1.1]
          exact htok
        have i2 := ih .xorLoop
          (.XOR st2.nodeIdCounter left right
            (left.expression ++ " ⊕ " ++ right.expression)
            (max left.depth right.depth + 1))
          ⟨st2.tokens, st2.pos, st2.nodeIdCounter + 1⟩ htok2
          (fun _ => ⟨hnodeids, hnodegood⟩)
        rcases hp2 : parseGo fuel .xorLoop
            (.XOR st2.nodeIdCounter left right
              (left.expression ++ " ⊕ " ++ right.expression)
              (max left.depth right.depth + 1))
            ⟨st2.tokens, st2.pos, st2.nodeIdCounter + 1⟩ with ⟨n3, st3⟩
        rw [hp2] at i2
        have hm2 : st2.nodeIdCounter + 1 ≤ st3.nodeIdCounter := i2.2.1
        exact ⟨i2.1.trans i1.1, (by omega : st.nodeIdCounter ≤ st3.nodeIdCounter),
          i2.2.2.1, i2.2.2.2⟩
      · rw [if_neg hpk]
        exact ⟨rfl, Nat.le_refl _, (hleft rfl).1, (hleft rfl).2⟩
    case or =>
      have i1 := ih .and left st htok (fun hcontra => absurd hcontra (by decide))
      rcases hp1 : parseGo fuel .and left st with ⟨l, st1⟩
      rw [hp1] at i1
      have htok1 : ∀ t ∈ st1.tokens, tokOk t = true := by
        rw [show st1.tokens = st.tokens from i1.1]
        exact htok
      have i2 := ih .orLoop l st1 htok1 (fun _ => ⟨i1.2.2.1, i1.2.2.2⟩)
      rcases hp2 : parseGo fuel .orLoop l st1 with ⟨n2, st2⟩
      rw [hp2] at i2
      simp only [parseGo, hp1, hp2]
      exact ⟨i2.1.trans i1.1, le_trans i1.2.1 i2.2.1, i2.2.2.1, i2.2.2.2⟩
    case orLoop =>
      simp only [parseGo, Parser.consume, Parser.generateId]
      by_cases hpk : (Parser.peek st).type = .OR
      · rw [if_pos hpk]
        have i1 := ih .and left ⟨st.tokens, st.pos + 1, st.nodeIdCounter⟩ htok
          (fun hcontra => absurd hcontra (by decide))
        rcases hp1 : parseGo fuel .and left ⟨st.tokens, st.pos + 1, st.nodeIdCounter⟩
          with ⟨right, st2⟩
        rw [hp1] at i1
        simp only [hp1]
        have hL := hleft rfl
        have hm1 : st.nodeIdCounter ≤ st2.nodeIdCounter := i1.2.1
        have hidl : idsBelow st2.nodeIdCounter left = true :=
          idsBelow_mono hm1 left hL.1
        have hnodeids : idsBelow (st2.nodeIdCounter + 1)
            (.OR st2.nodeIdCounter left right
              (left.expression ++ " ∨ " ++ right.expression)
              (max left.depth right.depth + 1)) = true := by
          simp only [idsBelow, Bool.and_eq_true, decide_eq_true_eq]
          exact ⟨⟨Nat.lt_succ_self _, idsBelow_mono (Nat.le_succ _) left hidl⟩,
            idsBelow_mono (Nat.le_succ _) right i1.2.2.1⟩
        have hnodegood : goodNode
            (.OR st2.nodeIdCounter left right
              (left.expression ++ " ∨ " ++ right.expression)
              (max left.depth right.depth + 1)) = true := by
          simp only [goodNode, Bool.and_eq_true]
          exact ⟨⟨⟨⟨marked_sep left.expression " ∨ " right.expression (by decide),
            hidl⟩, i1.2.2.1⟩, hL.2⟩, i1.2.2.2⟩
        have htok2 : ∀ t ∈ st2.tokens, tokOk t = true := by
          rw [show st2.tokens = st.tokens from i1.1]
          exact htok
        have i2 := ih .orLoop
          (.OR st2.nodeIdCounter left right
            (left.expression ++ " ∨ " ++ right.expression)
            (max left.depth right.depth + 1))
          ⟨st2.tokens, st2.pos, st2.nodeIdCounter + 1⟩ htok2
          (fun _ => ⟨hnodeids, hnodegood⟩)
        rcases hp2 : parseGo fuel .orLoop
            (.OR st2.nodeIdCounter left right
              (left.expression ++ " ∨ " ++ right.expression)
              (max left.depth right.depth + 1))
            ⟨st2.tokens, st2.pos, st2.nodeIdCounter + 1⟩ with ⟨n3, st3⟩
        rw [hp2] at i2
        have hm2 : st2.nodeIdCounter + 1 ≤ st3.nodeIdCounter := i2.2.1
        exact ⟨i2.1.trans i1.1, (by omega : st.nodeIdCounter ≤ st3.nodeIdCounter),
          i2.2.2.1, i2.2.2.2⟩
      · rw [if_neg hpk]
        exact ⟨rfl, Nat.le_refl _, (hleft rfl).1, (hleft rfl).2⟩
    case and =>
      have i1 := ih .not left st htok (fun hcontra => absurd hcontra (by decide))
      rcases hp1 : parseGo fuel .not left st with ⟨l, st1⟩
      rw [hp1] at i1
      have htok1 : ∀ t ∈ st1.tokens, tokOk t = true := by
        rw [show st1.tokens = st.tokens from i1.1]
        exact htok
      have i2 := ih .andLoop l st1 htok1 (fun _ => ⟨i1.2.2.1, i1.2.2.2⟩)
      rcases hp2 : parseGo fuel .andLoop l st1 with ⟨n2, st2⟩
      rw [hp2] at i2
      simp only [parseGo, hp1, hp2]
      exact ⟨i2.1.trans i1.1, le_trans i1.2.1 i2.2.1, i2.2.2.1, i2.2.2.2⟩
    case andLoop =>
      simp only [parseGo, Parser.consume, Parser.generateId]
      by_cases hpk : (Parser.peek st).type = .AND
      · rw [if_pos hpk]
        have i1 := ih .not left ⟨st.tokens, st.pos + 1, st.nodeIdCounter⟩ htok
          (fun hcontra => absurd hcontra (by decide))
        rcases hp1 : parseGo fuel .not left ⟨st.tokens, st.pos + 1, st.nodeIdCounter⟩
          with ⟨right, st2⟩
        rw [hp1] at i1
        simp only [hp1]
        have hL := hleft rfl
        have hm1 : st.nodeIdCounter ≤ st2.nodeIdCounter := i1.2.1
        have hidl : idsBelow st2.nodeIdCounter left = true :=
          idsBelow_mono hm1 left hL.1
        have hnodeids : idsBelow (st2.nodeIdCounter + 1)
            (.AND st2.nodeIdCounter left right
              (left.expression ++ " ∧ " ++ right.expression)
              (max left.depth right.depth + 1)) = true := by
          simp only [idsBelow, Bool.and_eq_true, decide_eq_true_eq]
          exact ⟨⟨Nat.lt_succ_self _, idsBelow_mono (Nat.le_succ _) left hidl⟩,
            idsBelow_mono (Nat.le_succ _) right i1.2.2.1⟩
        have hnodegood : goodNode
            (.AND st2.nodeIdCounter left right
              (left.expression ++ " ∧ " ++ right.expression)
              (max left.depth right.depth + 1)) = true := by
          simp only [goodNode, Bool.and_eq_true]
          exact ⟨⟨⟨⟨marked_sep left.expression " ∧ " right.expression (by decide),
            hidl⟩, i1.2.2.1⟩, hL.2⟩, i1.2.2.2⟩
        have htok2 : ∀ t ∈ st2.tokens, tokOk t = true := by
          rw [show st2.tokens = st.tokens from i1.1]
          exact htok
        have i2 := ih .andLoop
          (.AND st2.nodeIdCounter left right
            (left.expression ++ " ∧ " ++ right.expression)
            (max left.depth right.depth + 1))
          ⟨st2.tokens, st2.pos, st2.nodeIdCounter + 1⟩ htok2
          (fun _ => ⟨hnodeids, hnodegood⟩)
        rcases hp2 : parseGo fuel .andLoop
            (.AND st2.nodeIdCounter left right
              (left.expression ++ " ∧ " ++ right.expression)
              (max left.depth right.depth + 1))
            ⟨st2.tokens, st2.pos, st2.nodeIdCounter + 1⟩ with ⟨n3, st3⟩
        rw [hp2] at i2
        have hm2 : st2.nodeIdCounter + 1 ≤ st3.nodeIdCounter := i2.2.1
        exact ⟨i2.1.trans i1.1, (by omega : st.nodeIdCounter ≤ st3.nodeIdCounter),
          i2.2.2.1, i2.2.2.2⟩
      · rw [if_neg hpk]
        exact ⟨rfl, Nat.le_refl _, (hleft rfl).1, (hleft rfl).2⟩
    case not =>
      simp only [parseGo, Parser.consume, Parser.generateId]
      by_cases hpk : (Parser.peek st).type = .NOT
      · rw [if_pos hpk]
        have i1 := ih .not left ⟨st.tokens, st.pos + 1, st.nodeIdCounter⟩ htok
          (fun hcontra => absurd hcontra (by decide))
        rcases hp1 : parseGo fuel .not left ⟨st.tokens, st.pos + 1, st.nodeIdCounter⟩
          with ⟨operand, st2⟩
        rw [hp1] at i1
        simp only [hp1]
        have hpkmem : Parser.peek st ∈ st.tokens :=
          peek_mem_of_ne_eof st (by rw [hpk]; decide)
        have hmv : marked (Parser.peek st).value = true := by
          have h1 := htok _ hpkmem
          simp only [tokOk, Bool.and_eq_true] at h1
          have h2 := h1.2
          rw [if_pos hpk] at h2
          exact h2
        refine ⟨i1.1, le_trans i1.2.1 (Nat.le_succ _), ?_, ?_⟩
        · simp only [idsBelow, Bool.and_eq_true, decide_eq_true_eq]
          exact ⟨Nat.lt_succ_self _, idsBelow_mono (Nat.le_succ _) operand i1.2.2.1⟩
        · simp only [goodNode, Bool.and_eq_true]
          exact ⟨⟨marked_append_left _ _ hmv, i1.2.2.1⟩, i1.2.2.2⟩
      · rw [if_neg hpk]
        exact ih .factor left st htok (fun hcontra => absurd hcontra (by decide))
    case factor =>
      simp only [parseGo, Parser.consume, Parser.generateId]
      by_cases hbr : (Parser.peek st).type = .LPAREN ∨ (Parser.peek st).type = .LBRACKET ∨
          (Parser.peek st).type = .LBRACE
      · rw [if_pos hbr]
        have i1 := ih .iff left ⟨st.tokens, st.pos + 1, st.nodeIdCounter⟩ htok
          (fun hcontra => absurd hcontra (by decide))
        rcases hp1 : parseGo fuel .iff left ⟨st.tokens, st.pos + 1, st.nodeIdCounter⟩
          with ⟨node, st2⟩
        rw [hp1] at i1
        simp only [hp1]
        by_cases hcl : (Parser.peek st2).type = expectedCloseTypeOf (Parser.peek st).type
        · rw [if_pos hcl]
          refine ⟨i1.1, i1.2.1, ?_, ?_⟩
          · rw [idsBelow_setExpression]
            exact i1.2.2.1
          · exact goodNode_setExpression_wrap node _ _ i1.2.2.2
        · rw [if_neg hcl]
          exact i1
      · rw [if_neg hbr]
        by_cases hv : (Parser.peek st).type = .VAR
        · rw [if_pos hv]
          have hpkmem : Parser.peek st ∈ st.tokens :=
            peek_mem_of_ne_eof st (by rw [hv]; decide)
          have hcv : cleanStr (Parser.peek st).value = true := by
            have h1 := htok _ hpkmem
            simp only [tokOk, Bool.and_eq_true] at h1
            have h2 := h1.1
            rw [if_pos hv] at h2
            exact h2
          refine ⟨rfl, Nat.le_succ _, ?_, hcv⟩
          simp only [idsBelow, decide_eq_true_eq]
          exact Nat.lt_succ_self _
        · rw [if_neg hv]
          refine ⟨rfl, Nat.le_succ _, ?_, ?_⟩
          · exact decide_eq_true (Nat.lt_succ_self _)
          · exact (by decide : cleanStr "?" = true)

theorem parse_goodNode (tokens : List Token) (htok : ∀ t ∈ tokens, tokOk t = true) :
    goodNode (Parser.parse tokens) = true :=
  (parseGo_inv (parseFuel tokens) .iff noLeft ⟨tokens, 0, 0⟩ htok
    (fun hcontra => absurd hcontra (by decide))).2.2.2

theorem analysisAst_goodNode (e : String) : goodNode (analysisAst e) = true :=
  parse_goodNode (tokenize e) (tokenize_tokOk e)

theorem nodesOf_good : ∀ n : ASTNode, goodNode n = true → ∀ m ∈ nodesOf n, goodNode m = true := by
  intro n
  induction n with
  | VAR i v e d =>
    intro h m hm
    rw [nodesOf, List.mem_singleton] at hm
    subst hm
    exact h
  | NOT i op e d ih =>
    intro h m hm
    simp only [goodNode, Bool.and_eq_true] at h
    rcases List.mem_cons.mp hm with rfl | hm2
    · simp only [goodNode, Bool.and_eq_true]
      exact h
    · exact ih h.2 m hm2
  | AND i l r e d ihl ihr =>
    intro h m hm
    simp only [goodNode, Bool.and_eq_true] at h
    rcases List.mem_cons.mp hm with rfl | hm2
    · simp only [goodNode, Bool.and_eq_true]
      exact h
    · rcases List.mem_append.mp hm2 with hm3 | hm3
      · exact ihl h.1.2 m hm3
      · exact ihr h.2 m hm3
  | OR i l r e d ihl ihr =>
    intro h m hm
    simp only [goodNode, Bool.and_eq_true] at h
    rcases List.mem_cons.mp hm with rfl | hm2
    · simp only [goodNode, Bool.and_eq_true]
      exact h
    · rcases List.mem_append.mp hm2 with hm3 | hm3
      · exact ihl h.1.2 m hm3
      · exact ihr h.2 m hm3
  | XOR i l r e d ihl ihr =>
    intro h m hm
    simp only [goodNode, Bool.and_eq_true] at h
    rcases List.mem_cons.mp hm with rfl | hm2
    · simp only [goodNode, Bool.and_eq_true]
      exact h
    · rcases List.mem_append.mp hm2 with hm3 | hm3
      · exact ihl h.1.2 m hm3
      · exact ihr h.2 m hm3
  | IMPLIES i l r e d ihl ihr =>
    intro h m hm
    simp only [goodNode, Bool.and_eq_true] at h
    rcases List.mem_cons.mp hm with rfl | hm2
    · simp only [goodNode, Bool.and_eq_true]
      exact h
    · rcases List.mem_append.mp hm2 with hm3 | hm3
      · exact ihl h.1.2 m hm3
      · exact ihr h.2 m hm3
  | IFF i l r e d ihl ihr =>
    intro h m hm
    simp only [goodNode, Bool.and_eq_true] at h
    rcases List.mem_cons.mp hm with rfl | hm2
    · simp only [goodNode, Bool.and_eq_true]
      exact h
    · rcases List.mem_append.mp hm2 with hm3 | hm3
      · exact ihl h.1.2 m hm3
      · exact ihr h.2 m hm3

/-- In the deduplicated sub-expression list, the only node carrying the
root's id is the root itself: every proper subnode was created earlier and
has a smaller id. -/
theorem find_root_eq {ast m : ASTNode} (hg : goodNode ast = true)
    (hm : m ∈ extractSubExpressions ast []) (hid : m.id = ast.id) : m = ast := by
  rcases mem_extractSubExpressions ast [] m hm with h | h
  · simp at h
  · by_cases he : m = ast
    · exact he
    · have hlt := nodesOf_ne_id_lt hg m h he
      omega

/-- The output column's assignment always writes the root's evaluation:
its referenced node id resolves to the root (or the isOutput fallback). -/
theorem buildRowStep_result (e : String) (s : AppSettings) (ctx : Rec) (acc : Rec) :
    buildRowStep (subNodesOf e) (analysisAst e) ctx acc (resultColumnOf e s) =
      acc.set (analysisAst e).expression (evaluateAST (analysisAst e) ctx) := by
  have hcol : resultColumnOf e s =
      ⟨"node-" ++ natToDec (analysisAst e).id, formatLabel (analysisAst e).expression s,
        (analysisAst e).expression, false, true, some (analysisAst e).id,
        some (getDirectDependencies (analysisAst e))⟩ := by
    rw [resultColumnOf]
  rw [buildRowStep, hcol]
  dsimp only
  rw [if_neg (by simp : ¬(false = true))]
  cases hfs : (subNodesOf e).find? (fun n => some n.id = some (analysisAst e).id) with
  | some m =>
    have hmm := List.mem_of_find?_eq_some hfs
    have hp := List.find?_some hfs
    simp only [decide_eq_true_eq, Option.some.injEq] at hp
    have hme : m = analysisAst e :=
      find_root_eq (analysisAst_goodNode e) (by rw [subNodesOf] at hmm; exact hmm) hp
    rw [hme]
  | none =>
    rw [if_pos rfl]

/-- A column assignment never touches another column's key. -/
theorem buildRowStep_preserve (subs : List ASTNode) (ast : ASTNode) (ctx : Rec)
    (acc : Rec) (col : TableColumn) (k : String) (h : col.expression ≠ k) :
    (buildRowStep subs ast ctx acc col).lookupKey k = acc.lookupKey k := by
  rw [buildRowStep]
  split
  · exact AssocRec.lookupKey_set_ne _ _ _ _ (fun hh => h hh.symm)
  · cases hfs : subs.find? (fun n => some n.id = col.astId) with
    | some m => exact AssocRec.lookupKey_set_ne _ _ _ _ (fun hh => h hh.symm)
    | none =>
      by_cases ho : col.isOutput = true
      · rw [if_pos ho]
        exact AssocRec.lookupKey_set_ne _ _ _ _ (fun hh => h hh.symm)
      · rw [if_neg ho]

theorem buildRow_foldl_preserve (subs : List ASTNode) (ast : ASTNode) (ctx : Rec)
    (cols : List TableColumn) (acc : Rec) (k : String)
    (h : ∀ c ∈ cols, c.expression ≠ k) :
    (cols.foldl (buildRowStep subs ast ctx) acc).lookupKey k = acc.lookupKey k := by
  induction cols generalizing acc with
  | nil => rfl
  | cons c cs ih =>
    rw [List.foldl_cons, ih _ (fun x hx => h x (List.mem_cons_of_mem _ hx)),
      buildRowStep_preserve _ _ _ _ _ _ (h c (List.mem_cons_self _ _))]

theorem varColumnsOf_isInput {vs : List String} {c : TableColumn}
    (h : c ∈ varColumnsOf vs) : c.isInput = true ∧ c.expression ∈ vs := by
  rw [varColumnsOf] at h
  obtain ⟨v, hv, rfl⟩ := List.mem_map.mp h
  exact ⟨rfl, hv⟩

/-- Every derived-step column's expression is a composite expression and
carries a marker character. -/
theorem stepColumnsOf_marked {e : String} {s : AppSettings} {c : TableColumn}
    (h : c ∈ stepColumnsOf e s) : marked c.expression = true := by
  rw [stepColumnsOf] at h
  obtain ⟨n, hn, rfl⟩ := List.mem_map.mp h
  have hmem : n ∈ subNodesOf e := List.mem_of_mem_filter hn
  have hgood : goodNode n = true := by
    rcases mem_extractSubExpressions (analysisAst e) [] n
        (by rw [subNodesOf] at hmem; exact hmem) with h2 | h2
    · simp at h2
    · exact nodesOf_good _ (analysisAst_goodNode e) n h2
  have hnv : n.nodeType ≠ .VAR := by
    have hfp := List.of_mem_filter hn
    simp only [Bool.and_eq_true, decide_eq_true_eq] at hfp
    exact hfp.1
  exact goodNode_nonvar_marked hgood hnv

/-- Restricting analyzeLogic's column list to the inputs recovers exactly
the declared-variable columns. -/
theorem finalColumns_filter_input (e : String) (vs : List String) (s : AppSettings) :
    (finalColumnsOf e vs s).filter (fun c => c.isInput) = varColumnsOf vs := by
  rw [finalColumnsOf]
  have hvar : (varColumnsOf vs).filter (fun c => c.isInput) = varColumnsOf vs :=
    List.filter_eq_self.mpr (fun c hc => (varColumnsOf_isInput hc).1)
  have hstep : (stepColumnsOf e s).filter (fun c => c.isInput) = [] := by
    rw [List.filter_eq_nil_iff]
    intro c hc
    rw [stepColumnsOf] at hc
    obtain ⟨n, hn, rfl⟩ := List.mem_map.mp hc
    simp
  have hres : ([resultColumnOf e s]).filter (fun c => c.isInput) = [] := by
    simp [resultColumnOf]
  split
  · rw [List.filter_append, List.filter_append, hvar, hstep, hres]
    simp
  · rw [List.filter_append, hvar, hres]
    simp

theorem rowContext_lookupKey_isSome (vs : List String) (valIndex : Nat) (k : String)
    (hk : k ∈ vs) : ((rowContext vs valIndex).lookupKey k).isSome = true := by
  rw [rowContext, AssocRec.lookupKey_foldl_set vs.enum (fun vi => vi.2)
    (fun vi => decide (((valIndex >>> (vs.length - 1 - vi.1)) &&& 1) = 1)) [] k]
  cases hf : vs.enum.reverse.find? (fun vi => decide (vi.2 = k)) with
  | some vi => simp
  | none =>
    exfalso
    have hk2 : k ∈ vs.enum.map Prod.snd := by rw [List.enum_map_snd]; exact hk
    obtain ⟨vi, hvi, hvik⟩ := List.mem_map.mp hk2
    have hnone := List.find?_eq_none.mp hf vi (List.mem_reverse.mpr hvi)
    simp [hvik] at hnone

/-- The input context a row rebuild reads off analyzeLogic's columns: the
row's stored value for every declared variable. -/
theorem recalcContext_lookup_mem (row : TruthTableRow) (e : String) (vs : List String)
    (s : AppSettings) (k : String) (hk : k ∈ vs) :
    (recalcContext row (finalColumnsOf e vs s)).lookupKey k =
      some ((row.values.lookupKey k).getD false) := by
  rw [recalcContext, finalColumns_filter_input,
    AssocRec.lookupKey_foldl_set (varColumnsOf vs) (fun c => c.expression)
      (fun c => (row.values.lookupKey c.expression).getD false) [] k]
  cases hf : (varColumnsOf vs).reverse.find? (fun c => decide (c.expression = k)) with
  | some c =>
    have hp := List.find?_some hf
    simp only [decide_eq_true_eq] at hp
    dsimp only
    rw [hp]
  | none =>
    exfalso
    have hcmem : (⟨"var-" ++ k, k, k, true, false, none, none⟩ : TableColumn) ∈
        varColumnsOf vs := by
      rw [varColumnsOf]
      exact List.mem_map.mpr ⟨k, hk, rfl⟩
    have hnone := List.find?_eq_none.mp hf _ (List.mem_reverse.mpr hcmem)
    simp at hnone

theorem recalcContext_lookup_not_mem (row : TruthTableRow) (e : String)
    (vs : List String) (s : AppSettings) (k : String) (hk : ¬ k ∈ vs) :
    (recalcContext row (finalColumnsOf e vs s)).lookupKey k = none := by
  rw [recalcContext, finalColumns_filter_input,
    AssocRec.lookupKey_foldl_set (varColumnsOf vs) (fun c => c.expression)
      (fun c => (row.values.lookupKey c.expression).getD false) [] k]
  cases hf : (varColumnsOf vs).reverse.find? (fun c => decide (c.expression = k)) with
  | some c =>
    exfalso
    have hp := List.find?_some hf
    simp only [decide_eq_true_eq] at hp
    have hcm := List.mem_reverse.mp (List.mem_of_find?_eq_some hf)
    exact hk (hp ▸ (varColumnsOf_isInput hcm).2)
  | none => rfl

/-- A root whose expression string is a clean variable key is a variable
node reading exactly that key. -/
theorem root_var_eval (ast : ASTNode) (hg : goodNode ast = true) (ctx : Rec)
    (k : String) (hkv : k ∈ varsOf ast) (hclean : cleanStr k = true)
    (hre : ast.expression = k) : evaluateAST ast ctx = (ctx.lookupKey k).getD false := by
  cases ast with
  | VAR i v e2 d =>
    rw [varsOf] at hkv
    split at hkv
    · simp at hkv
    · next hcond =>
      rw [List.mem_singleton] at hkv
      subst hkv
      simp only [Bool.or_eq_true, decide_eq_true_eq, not_or, Bool.not_eq_true] at hcond
      rw [evaluateAST]
      rw [if_neg (by intro hh; rw [hh] at hcond; simp at hcond),
        if_neg (by intro hh; rw [hh] at hcond; simp at hcond)]
  | NOT i op e2 d =>
    exact absurd hre (marked_ne_clean (goodNode_nonvar_marked hg (by simp [ASTNode.nodeType])) hclean)
  | AND i l r e2 d =>
    exact absurd hre (marked_ne_clean (goodNode_nonvar_marked hg (by simp [ASTNode.nodeType])) hclean)
  | OR i l r e2 d =>
    exact absurd hre (marked_ne_clean (goodNode_nonvar_marked hg (by simp [ASTNode.nodeType])) hclean)
  | XOR i l r e2 d =>
    exact absurd hre (marked_ne_clean (goodNode_nonvar_marked hg (by simp [ASTNode.nodeType])) hclean)
  | IMPLIES i l r e2 d =>
    exact absurd hre (marked_ne_clean (goodNode_nonvar_marked hg (by simp [ASTNode.nodeType])) hclean)
  | IFF i l r e2 d =>
    exact absurd hre (marked_ne_clean (goodNode_nonvar_marked hg (by simp [ASTNode.nodeType])) hclean)

/-- The generated row preserves the context binding of every variable the
root evaluation reads: the input columns write it first, derived columns
never collide with it, and an output column overwriting it (a variable
root) rewrites the identical value. -/
theorem buildRowValues_var_key (e : String) (vs : List String) (s : AppSettings)
    (ctx : Rec) (k : String) (hkv : k ∈ varsOf (analysisAst e)) (hk : k ∈ vs) :
    (buildRowValues (finalColumnsOf e vs s) (subNodesOf e) (analysisAst e)
      ctx).lookupKey k = some ((ctx.lookupKey k).getD false) := by
  have hclean : cleanStr k = true := varsOf_clean (analysisAst_goodNode e) k hkv
  have hvar : ((varColumnsOf vs).foldl
      (buildRowStep (subNodesOf e) (analysisAst e) ctx) []).lookupKey k =
      some ((ctx.lookupKey k).getD false) := by
    have hv1 : (varColumnsOf vs).foldl
        (buildRowStep (subNodesOf e) (analysisAst e) ctx) [] =
        (varColumnsOf vs).foldl
          (fun (acc : Rec) c => acc.set c.expression
            ((ctx.lookupKey c.expression).getD false)) [] := by
      apply foldl_congr_mem
      intro acc c hc
      rw [buildRowStep, if_pos ((varColumnsOf_isInput hc).1)]
    rw [hv1, AssocRec.lookupKey_foldl_set (varColumnsOf vs) (fun c => c.expression)
      (fun c => (ctx.lookupKey c.expression).getD false) [] k]
    cases hf : (varColumnsOf vs).reverse.find? (fun c => decide (c.expression = k)) with
    | some c =>
      have hp := List.find?_some hf
      simp only [decide_eq_true_eq] at hp
      dsimp only
      rw [hp]
    | none =>
      exfalso
      have hcmem : (⟨"var-" ++ k, k, k, true, false, none, none⟩ : TableColumn) ∈
          varColumnsOf vs := by
        rw [varColumnsOf]
        exact List.mem_map.mpr ⟨k, hk, rfl⟩
      have hnone := List.find?_eq_none.mp hf _ (List.mem_reverse.mpr hcmem)
      simp at hnone
  have hstepkeys : ∀ c ∈ stepColumnsOf e s, c.expression ≠ k :=
    fun c hc => marked_ne_clean (stepColumnsOf_marked hc) hclean
  have hlast : ∀ acc : Rec, acc.lookupKey k = some ((ctx.lookupKey k).getD false) →
      (buildRowStep (subNodesOf e) (analysisAst e) ctx acc
        (resultColumnOf e s)).lookupKey k = some ((ctx.lookupKey k).getD false) := by
    intro acc hacc
    rw [buildRowStep_result]
    by_cases hre : (analysisAst e).expression = k
    · rw [hre, AssocRec.lookupKey_set_self,
        root_var_eval (analysisAst e) (analysisAst_goodNode e) ctx k hkv hclean hre]
    · rw [AssocRec.lookupKey_set_ne _ _ _ _ (fun hh => hre hh.symm)]
      exact hacc
  rw [buildRowValues, finalColumnsOf]
  split
  · rw [List.foldl_append, List.foldl_append, List.foldl_cons, List.foldl_nil]
    exact hlast _ (by rw [buildRow_foldl_preserve _ _ _ _ _ _ hstepkeys]; exact hvar)
  · rw [List.foldl_append, List.foldl_cons, List.foldl_nil]
    exact hlast _ hvar

/-- The output-column value of a generated row is the root's evaluation
under the generation context. -/
theorem buildRowValues_root (e : String) (vs : List String) (s : AppSettings)
    (ctx : Rec) :
    (buildRowValues (finalColumnsOf e vs s) (subNodesOf e) (analysisAst e)
      ctx).lookupKey (analysisAst e).expression =
      some (evaluateAST (analysisAst e) ctx) := by
  rw [buildRowValues, finalColumnsOf]
  split
  · rw [List.foldl_append, List.foldl_append, List.foldl_cons, List.foldl_nil,
      buildRowStep_result]
    exact AssocRec.lookupKey_set_self _ _ _
  · rw [List.foldl_append, List.foldl_cons, List.foldl_nil, buildRowStep_result]
    exact AssocRec.lookupKey_set_self _ _ _

/-- Claim C2: for every expression and declared-variable list accepted by
analyzeLogic, and for every row of the returned result, the value stored
under the root's expression string (the output column) equals evaluateAST
applied to the root AST and the context rebuilt from that row's
input-column values alone. -/
theorem c2_output_column_roundtrip (e : String) (vs : List String) (s : AppSettings)
    (res : AnalysisResult) (hok : analyzeLogic e vs s = .ok res) :
    ∀ r ∈ res.rows,
      r.values.lookupKey res.ast.expression =
        some (evaluateAST res.ast (recalcContext r res.columns)) := by
  have hres := analyzeLogic_ok_elim hok
  subst hres
  rw [analyzeLogicCore_rows, analyzeLogicCore_ast, analyzeLogicCore_columns]
  intro r hr
  rw [analysisRowsOf] at hr
  simp only [List.mem_map, List.mem_range] at hr
  obtain ⟨i, -, rfl⟩ := hr
  dsimp only
  generalize (if s.logic.rowOrder = RowOrder.descending then 2 ^ vs.length - 1 - i else i) = V
  rw [buildRowValues_root]
  refine congrArg some (evaluateAST_congr _ _ _ ?_)
  intro v hv
  by_cases hvm : v ∈ vs
  · rw [recalcContext_lookup_mem _ e vs s v hvm]
    dsimp only
    rw [buildRowValues_var_key e vs s (rowContext vs V) v hv hvm]
    obtain ⟨b, hb⟩ := Option.isSome_iff_exists.mp (rowContext_lookupKey_isSome vs V v hvm)
    rw [hb]
    rfl
  · rw [rowContext_lookupKey_not_mem vs V v (fun w hw hww => hvm (hww ▸ hw)),
      recalcContext_lookup_not_mem _ e vs s v hvm]

/-- Witness for C2 at the analysis of "P ∧ Q" over P, Q and its third row
(P true, Q false). -/
theorem c2_output_column_roundtrip_witness :
    (⟨"row-2", [("P", true), ("Q", false), ("P ∧ Q", false)], 2⟩ : TruthTableRow).values.lookupKey
        (analyzeLogicOk "P ∧ Q" ["P", "Q"] DEFAULT_SETTINGS).ast.expression =
      some (evaluateAST (analyzeLogicOk "P ∧ Q" ["P", "Q"] DEFAULT_SETTINGS).ast
        (recalcContext ⟨"row-2", [("P", true), ("Q", false), ("P ∧ Q", false)], 2⟩
          (analyzeLogicOk "P ∧ Q" ["P", "Q"] DEFAULT_SETTINGS).columns)) :=
  c2_output_column_roundtrip "P ∧ Q" ["P", "Q"] DEFAULT_SETTINGS
    (analyzeLogicOk "P ∧ Q" ["P", "Q"] DEFAULT_SETTINGS) rfl
    ⟨"row-2", [("P", true), ("Q", false), ("P ∧ Q", false)], 2⟩ (by decide)

-- ---------------------------------------------------------------------------
-- Claim C4: the K-map solver's greedy invariants.
-- ---------------------------------------------------------------------------

/-- The minterm indices a group's cells point at. -/
def groupMinterms (grid : List (List KMapCell)) (g : KMapGroup) : List Nat :=
  g.cells.map (fun cell => (cellAt grid cell.r cell.c).mintermIndex)

/-- The covered minterms after a run of accepted groups (as a plain
concatenation; only membership matters). -/
def coveredAfter (grid : List (List KMapCell)) (c0 : List Nat) :
    List KMapGroup → List Nat
  | [] => c0
  | g :: gs => coveredAfter grid (c0 ++ groupMinterms grid g) gs

/-- Greedy freshness: every accepted group covers at least one minterm not
covered by the previously accepted groups. -/
def FreshSeq (grid : List (List KMapCell)) : List KMapGroup → List Nat → Prop
  | [], _ => True
  | g :: gs, c0 => (∃ m ∈ groupMinterms grid g, ¬ m ∈ c0) ∧
      FreshSeq grid gs (c0 ++ groupMinterms grid g)

/-- The solver-state invariant: accepted groups cover only 1-cells, the
covered list is exactly the union of the accepted groups' minterms, and
the acceptance order was greedy-fresh. -/
def KInv (grid : List (List KMapCell)) (st : SolveState) : Prop :=
  (∀ g ∈ st.groups, ∀ cl ∈ g.cells, (cellAt grid cl.r cl.c).value = true) ∧
  (∀ m : Nat, m ∈ st.covered ↔ m ∈ coveredAfter grid [] st.groups) ∧
  FreshSeq grid st.groups []

theorem coveredAfter_append (grid : List (List KMapCell)) (gs : List KMapGroup) :
    ∀ (c0 : List Nat) (g : KMapGroup),
      coveredAfter grid c0 (gs ++ [g]) = coveredAfter grid c0 gs ++ groupMinterms grid g := by
  induction gs with
  | nil => intro c0 g; rfl
  | cons h t ih => intro c0 g; exact ih _ g

theorem FreshSeq_append (grid : List (List KMapCell)) (gs : List KMapGroup) :
    ∀ (c0 : List Nat) (g : KMapGroup), FreshSeq grid gs c0 →
      (∃ m ∈ groupMinterms grid g, ¬ m ∈ coveredAfter grid c0 gs) →
      FreshSeq grid (gs ++ [g]) c0 := by
  induction gs with
  | nil =>
    intro c0 g _ hex
    exact ⟨hex, trivial⟩
  | cons h t ih =>
    intro c0 g hf hex
    exact ⟨hf.1, ih _ g hf.2 hex⟩

theorem mem_foldl_addUnique {α β : Type} [DecidableEq α] (f : β → α) (l : List β) :
    ∀ (acc : List α) (a : α),
      a ∈ l.foldl (fun acc x => addUnique acc (f x)) acc ↔ a ∈ acc ∨ a ∈ l.map f := by
  induction l with
  | nil => simp
  | cons x xs ih =>
    intro acc a
    rw [List.foldl_cons, ih, mem_addUnique, List.map_cons, List.mem_cons]
    tauto

theorem mem_foldl_addUnique_id {α : Type} [DecidableEq α] (l : List α) :
    ∀ (acc : List α) (a : α), a ∈ l.foldl addUnique acc ↔ a ∈ acc ∨ a ∈ l := by
  induction l with
  | nil => simp
  | cons x xs ih =>
    intro acc a
    rw [List.foldl_cons, ih, mem_addUnique, List.mem_cons]
    tauto

/-- The invariant survives an accepted rectangle. -/
theorem step_core (grid : List (List KMapCell)) (cells : List KMapGroupCell)
    (color term : String) (st : SolveState) (h : KInv grid st)
    (hall : cells.all (fun cell => (cellAt grid cell.r cell.c).value) = true)
    (hnew : (cells.foldl
      (fun acc cell => addUnique acc (cellAt grid cell.r cell.c).mintermIndex) []).any
      (fun m => !st.covered.contains m) = true) :
    KInv grid ⟨st.groups ++ [⟨cells, color, term⟩],
      (cells.foldl
        (fun acc cell => addUnique acc (cellAt grid cell.r cell.c).mintermIndex) []).foldl
        addUnique st.covered⟩ := by
  obtain ⟨hI1, hI2, hI3⟩ := h
  have hMmem : ∀ m : Nat, m ∈ cells.foldl
      (fun acc cell => addUnique acc (cellAt grid cell.r cell.c).mintermIndex) [] ↔
      m ∈ groupMinterms grid ⟨cells, color, term⟩ := by
    intro m
    rw [mem_foldl_addUnique (fun cell => (cellAt grid cell.r cell.c).mintermIndex) cells]
    rw [groupMinterms]
    simp
  refine ⟨?_, ?_, ?_⟩
  · intro g hg cl hcl
    rcases List.mem_append.mp hg with hg2 | hg2
    · exact hI1 g hg2 cl hcl
    · rw [List.mem_singleton] at hg2
      subst hg2
      exact List.all_eq_true.mp hall cl hcl
  · intro m
    rw [mem_foldl_addUnique_id, coveredAfter_append, List.mem_append, hI2 m, hMmem m]
  · obtain ⟨m, hmM, hmnc⟩ := List.any_eq_true.mp hnew
    apply FreshSeq_append grid st.groups [] _ hI3
    refine ⟨m, (hMmem m).mp hmM, ?_⟩
    intro hmc
    rw [← hI2 m] at hmc
    simp only [List.contains, List.elem_eq_true_of_mem hmc] at hmnc
    simp at hmnc

/-- One scan step preserves the invariant. -/
theorem tryRect_KInv (grid : List (List KMapCell)) (rows cols : Nat)
    (rv cv rg cg : List String) (size : KMapSize) (r c : Nat) (st : SolveState)
    (h : KInv grid st) :
    KInv grid (tryRect grid rows cols rv cv rg cg size r c st) := by
  simp only [tryRect]
  split
  · split
    · next hnew =>
      apply step_core _ _ _ _ _ h
      · assumption
      · exact hnew
    · exact h
  · exact h

/-- One scan step never uncovers a minterm. -/
theorem tryRect_covered_mono (grid : List (List KMapCell)) (rows cols : Nat)
    (rv cv rg cg : List String) (size : KMapSize) (r c : Nat) (st : SolveState)
    (m : Nat) (hm : m ∈ st.covered) :
    m ∈ (tryRect grid rows cols rv cv rg cg size r c st).covered := by
  simp only [tryRect]
  split
  · split
    · exact (mem_foldl_addUnique_id _ _ _).mpr (Or.inl hm)
    · exact hm
  · exact hm

/-- The 1×1 rectangle at a 1-cell always leaves that cell's minterm
covered: either it is freshly accepted or it was covered before. -/
theorem tryRect_one_covers (grid : List (List KMapCell)) (rows cols : Nat)
    (rv cv rg cg : List String) (r c : Nat) (st : SolveState)
    (hr : r < rows) (hc : c < cols) (hval : (cellAt grid r c).value = true) :
    (cellAt grid r c).mintermIndex ∈
      (tryRect grid rows cols rv cv rg cg ⟨1, 1, 1⟩ r c st).covered := by
  have hr1 : List.range 1 = [0] := rfl
  simp only [tryRect, hr1, List.flatMap_cons, List.flatMap_nil, List.map_cons,
    List.map_nil, List.append_nil, Nat.add_zero, Nat.mod_eq_of_lt hr, Nat.mod_eq_of_lt hc]
  rw [if_pos (by simp [hval] : ([(⟨r, c⟩ : KMapGroupCell)].all
    (fun cell => (cellAt grid cell.r cell.c).value)) = true)]
  by_cases hnew : (([(⟨r, c⟩ : KMapGroupCell)].foldl
      (fun acc cell => addUnique acc (cellAt grid cell.r cell.c).mintermIndex) []).any
      (fun m => !st.covered.contains m)) = true
  · rw [if_pos hnew]
    apply (mem_foldl_addUnique_id _ _ _).mpr
    apply Or.inr
    apply (mem_foldl_addUnique (fun cell : KMapGroupCell => (cellAt grid cell.r cell.c).mintermIndex) _ _ _).mpr
    simp
  · rw [if_neg hnew]
    simp only [List.foldl_cons, List.foldl_nil, List.any_eq_true, not_exists] at hnew
    push_neg at hnew
    have h2 := hnew (cellAt grid r c).mintermIndex (by simp [addUnique])
    simp only [Bool.not_eq_true, Bool.not_eq_false] at h2
    have h3 : (cellAt grid r c).mintermIndex ∈ st.covered := by
      have h4 : List.elem (cellAt grid r c).mintermIndex st.covered = true := by
        simpa [List.contains] using h2
      exact List.mem_of_elem_eq_true h4
    exact h3

theorem foldl_preserve {α σ : Type} (step : σ → α → σ) (P : σ → Prop)
    (hpres : ∀ s a, P s → P (step s a)) :
    ∀ (l : List α) (init : σ), P init → P (l.foldl step init) := by
  intro l
  induction l with
  | nil => exact fun init h => h
  | cons x xs ih => exact fun init h => ih _ (hpres _ _ h)

theorem foldl_establish {α σ : Type} (step : σ → α → σ) (P : σ → Prop) (x : α)
    (hpres : ∀ s a, P s → P (step s a)) (hest : ∀ s, P (step s x)) :
    ∀ (l : List α) (init : σ), x ∈ l → P (l.foldl step init) := by
  intro l
  induction l with
  | nil =>
    intro init h
    simp at h
  | cons y ys ih =>
    intro init hx
    rcases List.mem_cons.mp hx with rfl | hmem
    · exact foldl_preserve step P hpres ys _ (hest init)
    · exact ih _ hmem

/-- The solver's triple scan, named. -/
def kmapScan (grid : List (List KMapCell)) (rowVars colVars rowGray colGray : List String)
    (rows cols : Nat) (sizes : List KMapSize) : SolveState :=
  sizes.foldl
    (fun st size =>
      (List.range rows).foldl
        (fun st r =>
          (List.range cols).foldl
            (fun st c => tryRect grid rows cols rowVars colVars rowGray colGray size r c st)
            st)
        st)
    ⟨[], []⟩

theorem solveKMap_fst (grid : List (List KMapCell)) (om : List Nat)
    (rv cv rg cg : List String) :
    (solveKMap grid om rv cv rg cg).1 =
      (kmapScan grid rv cv rg cg grid.length (grid.headD []).length
        (sortSizesByAreaDesc (buildSizes grid.length (grid.headD []).length))).groups := rfl

theorem kmapScan_KInv (grid : List (List KMapCell)) (rv cv rg cg : List String)
    (rows cols : Nat) (sizes : List KMapSize) :
    KInv grid (kmapScan grid rv cv rg cg rows cols sizes) := by
  rw [kmapScan]
  apply foldl_preserve _ (KInv grid)
  · intro s size hs
    apply foldl_preserve _ (KInv grid)
    · intro s2 r hs2
      apply foldl_preserve _ (KInv grid)
      · intro s3 c hs3
        exact tryRect_KInv grid rows cols rv cv rg cg size r c s3 hs3
      · exact hs2
    · exact hs
  · refine ⟨?_, ?_, trivial⟩
    · intro g hg
      simp at hg
    · intro m
      simp [coveredAfter]

theorem kmapScan_covers (grid : List (List KMapCell)) (rv cv rg cg : List String)
    (rows cols : Nat) (sizes : List KMapSize) (r c : Nat)
    (hr : r < rows) (hc : c < cols) (hone : (⟨1, 1, 1⟩ : KMapSize) ∈ sizes)
    (hval : (cellAt grid r c).value = true) :
    (cellAt grid r c).mintermIndex ∈ (kmapScan grid rv cv rg cg rows cols sizes).covered := by
  rw [kmapScan]
  have hmono : ∀ (size : KMapSize) (s : SolveState),
      (cellAt grid r c).mintermIndex ∈ s.covered →
      (cellAt grid r c).mintermIndex ∈
        ((List.range rows).foldl
          (fun st r2 =>
            (List.range cols).foldl
              (fun st c2 => tryRect grid rows cols rv cv rg cg size r2 c2 st) st)
          s).covered := by
    intro size s hs
    refine foldl_preserve _ (fun st : SolveState => (cellAt grid r c).mintermIndex ∈ st.covered)
      ?_ _ _ hs
    intro s2 r2 hs2
    refine foldl_preserve _ (fun st : SolveState => (cellAt grid r c).mintermIndex ∈ st.covered)
      ?_ _ _ hs2
    intro s3 c2 hs3
    exact tryRect_covered_mono grid rows cols rv cv rg cg size r2 c2 s3 _ hs3
  refine foldl_establish
    (fun st size =>
      (List.range rows).foldl
        (fun st r2 =>
          (List.range cols).foldl
            (fun st c2 => tryRect grid rows cols rv cv rg cg size r2 c2 st) st)
        st)
    (fun st : SolveState => (cellAt grid r c).mintermIndex ∈ st.covered) ⟨1, 1, 1⟩
    (fun s size hs => hmono size s hs) ?_ sizes ⟨[], []⟩ hone
  intro s
  refine foldl_establish
    (fun st r2 =>
      (List.range cols).foldl
        (fun st c2 => tryRect grid rows cols rv cv rg cg ⟨1, 1, 1⟩ r2 c2 st) st)
    (fun st : SolveState => (cellAt grid r c).mintermIndex ∈ st.covered) r
    ?_ ?_ (List.range rows) s (List.mem_range.mpr hr)
  · intro s2 r2 hs2
    refine foldl_preserve _ (fun st : SolveState => (cellAt grid r c).mintermIndex ∈ st.covered)
      ?_ _ _ hs2
    intro s3 c2 hs3
    exact tryRect_covered_mono grid rows cols rv cv rg cg ⟨1, 1, 1⟩ r2 c2 s3 _ hs3
  · intro s2
    refine foldl_establish
      (fun st c2 => tryRect grid rows cols rv cv rg cg ⟨1, 1, 1⟩ r c2 st)
      (fun st : SolveState => (cellAt grid r c).mintermIndex ∈ st.covered) c
      ?_ ?_ (List.range cols) s2 (List.mem_range.mpr hc)
    · intro s3 c2 hs3
      exact tryRect_covered_mono grid rows cols rv cv rg cg ⟨1, 1, 1⟩ r c2 s3 _ hs3
    · intro s3
      exact tryRect_one_covers grid rows cols rv cv rg cg r c s3 hr hc hval

theorem mem_insertByAreaDesc (p : KMapSize) (l : List KMapSize) (q : KMapSize) :
    q ∈ insertByAreaDesc p l ↔ q = p ∨ q ∈ l := by
  induction l with
  | nil => simp [insertByAreaDesc]
  | cons x xs ih =>
    rw [insertByAreaDesc]
    split
    · rw [List.mem_cons, ih, List.mem_cons]
      tauto
    · rw [List.mem_cons, List.mem_cons]

theorem mem_sortSizesByAreaDesc (l : List KMapSize) (q : KMapSize) :
    q ∈ sortSizesByAreaDesc l ↔ q ∈ l := by
  rw [sortSizesByAreaDesc]
  induction l with
  | nil => simp
  | cons x xs ih =>
    rw [List.foldr_cons, mem_insertByAreaDesc, ih, List.mem_cons]

theorem one_mem_buildSizes (rows cols : Nat) (hr : 1 ≤ rows) (hc : 1 ≤ cols) :
    (⟨1, 1, 1⟩ : KMapSize) ∈ buildSizes rows cols := by
  rw [buildSizes]
  apply List.mem_flatMap.mpr
  refine ⟨1, by simp, ?_⟩
  apply List.mem_filterMap.mpr
  refine ⟨1, by simp, ?_⟩
  rw [if_pos]
  simp [hr, hc]
  decide

theorem mem_coveredAfter (grid : List (List KMapCell)) (gs : List KMapGroup) :
    ∀ (c0 : List Nat) (m : Nat),
      m ∈ coveredAfter grid c0 gs ↔ m ∈ c0 ∨ ∃ g ∈ gs, m ∈ groupMinterms grid g := by
  induction gs with
  | nil =>
    intro c0 m
    simp [coveredAfter]
  | cons g gs ih =>
    intro c0 m
    rw [coveredAfter, ih, List.mem_append]
    constructor
    · rintro ((h | h) | ⟨g2, hg2, hm⟩)
      · exact Or.inl h
      · exact Or.inr ⟨g, List.mem_cons_self _ _, h⟩
      · exact Or.inr ⟨g2, List.mem_cons_of_mem _ hg2, hm⟩
    · rintro (h | ⟨g2, hg2, hm⟩)
      · exact Or.inl (Or.inl h)
      · rcases List.mem_cons.mp hg2 with rfl | hg3
        · exact Or.inl (Or.inr hm)
        · exact Or.inr ⟨g2, hg3, hm⟩

/-- The solver's output invariants, for any grid. -/
theorem solveKMap_invariants (grid : List (List KMapCell)) (om : List Nat)
    (rv cv rg cg : List String) :
    (∀ g ∈ (solveKMap grid om rv cv rg cg).1, ∀ cl ∈ g.cells,
      (cellAt grid cl.r cl.c).value = true) ∧
    FreshSeq grid (solveKMap grid om rv cv rg cg).1 [] ∧
    (∀ r c : Nat, r < grid.length → c < (grid.headD []).length →
      (cellAt grid r c).value = true →
      ∃ g ∈ (solveKMap grid om rv cv rg cg).1,
        (cellAt grid r c).mintermIndex ∈ groupMinterms grid g) := by
  rw [solveKMap_fst]
  obtain ⟨hS, hC, hF⟩ := kmapScan_KInv grid rv cv rg cg grid.length (grid.headD []).length
    (sortSizesByAreaDesc (buildSizes grid.length (grid.headD []).length))
  refine ⟨hS, hF, ?_⟩
  intro r c hrb hcb hval
  have hone : (⟨1, 1, 1⟩ : KMapSize) ∈ sortSizesByAreaDesc
      (buildSizes grid.length (grid.headD []).length) :=
    (mem_sortSizesByAreaDesc _ _).mpr (one_mem_buildSizes _ _ (by omega) (by omega))
  have hcov := kmapScan_covers grid rv cv rg cg grid.length (grid.headD []).length _
    r c hrb hcb hone hval
  have h2 := (hC _).mp hcov
  rcases (mem_coveredAfter _ _ _ _).mp h2 with h3 | h3
  · simp at h3
  · exact h3

/-- Claim C4: for every produced Karnaugh map, every accepted group covers
only 1-cells and covers some minterm no earlier accepted group covers
(greedy freshness), and every on-minterm is covered by an accepted
group. -/
theorem c4_kmap_group_invariants (vars : List String) (rows : List TruthTableRow)
    (km : KMapData) (hkm : generateKMap vars rows = some km) :
    (∀ g ∈ km.groups, ∀ cl ∈ g.cells, (cellAt km.grid cl.r cl.c).value = true) ∧
    FreshSeq km.grid km.groups [] ∧
    (∀ r c : Nat, r < km.grid.length → c < (km.grid.headD []).length →
      (cellAt km.grid r c).value = true →
      ∃ g ∈ km.groups, (cellAt km.grid r c).mintermIndex ∈ groupMinterms km.grid g) := by
  rw [generateKMap] at hkm
  split at hkm
  · exact Option.noConfusion hkm
  · simp only [Option.some.injEq] at hkm
    subst hkm
    dsimp only
    exact solveKMap_invariants _ _ _ _ _ _

/-- The K-map of a concrete run (error-filler default never reached at the
inputs considered). -/
def kmapOk (vars0 : List String) (rows : List TruthTableRow) : KMapData :=
  match generateKMap vars0 rows with
  | some k => k
  | none => ⟨[], [], [], [], [], ""⟩

/-- Witness for C4 at the 2-variable map of P ∧ Q. -/
theorem c4_kmap_group_invariants_witness :
    (∀ g ∈ (kmapOk ["P", "Q"]
        [⟨"row-0", [("P", false), ("Q", false), ("P ∧ Q", false)], 0⟩,
         ⟨"row-1", [("P", false), ("Q", true), ("P ∧ Q", false)], 1⟩,
         ⟨"row-2", [("P", true), ("Q", false), ("P ∧ Q", false)], 2⟩,
         ⟨"row-3", [("P", true), ("Q", true), ("P ∧ Q", true)], 3⟩]).groups,
      ∀ cl ∈ g.cells,
        (cellAt (kmapOk ["P", "Q"]
          [⟨"row-0", [("P", false), ("Q", false), ("P ∧ Q", false)], 0⟩,
           ⟨"row-1", [("P", false), ("Q", true), ("P ∧ Q", false)], 1⟩,
           ⟨"row-2", [("P", true), ("Q", false), ("P ∧ Q", false)], 2⟩,
           ⟨"row-3", [("P", true), ("Q", true), ("P ∧ Q", true)], 3⟩]).grid
          cl.r cl.c).value = true) ∧
    FreshSeq (kmapOk ["P", "Q"]
        [⟨"row-0", [("P", false), ("Q", false), ("P ∧ Q", false)], 0⟩,
         ⟨"row-1", [("P", false), ("Q", true), ("P ∧ Q", false)], 1⟩,
         ⟨"row-2", [("P", true), ("Q", false), ("P ∧ Q", false)], 2⟩,
         ⟨"row-3", [("P", true), ("Q", true), ("P ∧ Q", true)], 3⟩]).grid
      (kmapOk ["P", "Q"]
        [⟨"row-0", [("P", false), ("Q", false), ("P ∧ Q", false)], 0⟩,
         ⟨"row-1", [("P", false), ("Q", true), ("P ∧ Q", false)], 1⟩,
         ⟨"row-2", [("P", true), ("Q", false), ("P ∧ Q", false)], 2⟩,
         ⟨"row-3", [("P", true), ("Q", true), ("P ∧ Q", true)], 3⟩]).groups [] ∧
    (∀ r c : Nat,
      r < (kmapOk ["P", "Q"]
        [⟨"row-0", [("P", false), ("Q", false), ("P ∧ Q", false)], 0⟩,
         ⟨"row-1", [("P", false), ("Q", true), ("P ∧ Q", false)], 1⟩,
         ⟨"row-2", [("P", true), ("Q", false), ("P ∧ Q", false)], 2⟩,
         ⟨"row-3", [("P", true), ("Q", true), ("P ∧ Q", true)], 3⟩]).grid.length →
      c < ((kmapOk ["P", "Q"]
        [⟨"row-0", [("P", false), ("Q", false), ("P ∧ Q", false)], 0⟩,
         ⟨"row-1", [("P", false), ("Q", true), ("P ∧ Q", false)], 1⟩,
         ⟨"row-2", [("P", true), ("Q", false), ("P ∧ Q", false)], 2⟩,
         ⟨"row-3", [("P", true), ("Q", true), ("P ∧ Q", true)], 3⟩]).grid.headD []).length →
      (cellAt (kmapOk ["P", "Q"]
        [⟨"row-0", [("P", false), ("Q", false), ("P ∧ Q", false)], 0⟩,
         ⟨"row-1", [("P", false), ("Q", true), ("P ∧ Q", false)], 1⟩,
         ⟨"row-2", [("P", true), ("Q", false), ("P ∧ Q", false)], 2⟩,
         ⟨"row-3", [("P", true), ("Q", true), ("P ∧ Q", true)], 3⟩]).grid r c).value = true →
      ∃ g ∈ (kmapOk ["P", "Q"]
        [⟨"row-0", [("P", false), ("Q", false), ("P ∧ Q", false)], 0⟩,
         ⟨"row-1", [("P", false), ("Q", true), ("P ∧ Q", false)], 1⟩,
         ⟨"row-2", [("P", true), ("Q", false), ("P ∧ Q", false)], 2⟩,
         ⟨"row-3", [("P", true), ("Q", true), ("P ∧ Q", true)], 3⟩]).groups,
        (cellAt (kmapOk ["P", "Q"]
          [⟨"row-0", [("P", false), ("Q", false), ("P ∧ Q", false)], 0⟩,
           ⟨"row-1", [("P", false), ("Q", true), ("P ∧ Q", false)], 1⟩,
           ⟨"row-2", [("P", true), ("Q", false), ("P ∧ Q", false)], 2⟩,
           ⟨"row-3", [("P", true), ("Q", true), ("P ∧ Q", true)], 3⟩]).grid r c).mintermIndex ∈
          groupMinterms (kmapOk ["P", "Q"]
            [⟨"row-0", [("P", false), ("Q", false), ("P ∧ Q", false)], 0⟩,
             ⟨"row-1", [("P", false), ("Q", true), ("P ∧ Q", false)], 1⟩,
             ⟨"row-2", [("P", true), ("Q", false), ("P ∧ Q", false)], 2⟩,
             ⟨"row-3", [("P", true), ("Q", true), ("P ∧ Q", true)], 3⟩]).grid g) :=
  c4_kmap_group_invariants ["P", "Q"]
    [⟨"row-0", [("P", false), ("Q", false), ("P ∧ Q", false)], 0⟩,
     ⟨"row-1", [("P", false), ("Q", true), ("P ∧ Q", false)], 1⟩,
     ⟨"row-2", [("P", true), ("Q", false), ("P ∧ Q", false)], 2⟩,
     ⟨"row-3", [("P", true), ("Q", true), ("P ∧ Q", true)], 3⟩]
    (kmapOk ["P", "Q"]
      [⟨"row-0", [("P", false), ("Q", false), ("P ∧ Q", false)], 0⟩,
       ⟨"row-1", [("P", false), ("Q", true), ("P ∧ Q", false)], 1⟩,
       ⟨"row-2", [("P", true), ("Q", false), ("P ∧ Q", false)], 2⟩,
       ⟨"row-3", [("P", true), ("Q", true), ("P ∧ Q", true)], 3⟩]) rfl
